import Mathlib

/-!
# Hash tables of `src/cpp/hashtables/hashtable.h`

A shallow embedding of the two hash tables of the repository, the linear-probing
`OpenAddressingHashtable` and the chained `ClosedAddressingHashtable`, and proofs about
their `get`, `exists`, `add`, `loadFactor` and constructors.

Modelling conventions.

* `std::vector<T>` is a `List T`; `vector::at` is `vectorAt`, which fails with
  `std::out_of_range` outside the vector.
* A C++ function that can throw returns `Except Exception _`.  `x % 0` on unsigned
  integers is undefined behaviour and is reported as `Exception.undefinedBehaviour`.
* `unsigned long` hash codes, `int` counts and indices are natural numbers (unbounded:
  the model is exact as long as the count stays below `2^31`).
* A `float` is the rational number it denotes, and the arithmetic is IEEE 754 binary32
  evaluated in binary32: `_currentCount / (float)_elements.size()` converts both integers
  to binary32 and rounds their quotient to binary32 (`float32Div`: 24-bit significand,
  round to nearest, ties to even), and `>` / `>=` compare the values.  The exponent range is
  unbounded, which is exact for every count and size the code can hold; infinities and NaN
  are outside the model.  A threshold written as a literal is the binary32 value of that
  literal (`threshold06` for `0.6f`).
* A `KV&` returned by `getKeyValue` is modelled by the index of the slot it refers to.
* `std::hash<TKey>` is a function `TKey → ℕ` handed to the constructor.
-/

/-- The exceptions the code can raise, and the two ways it can go wrong without one. -/
inductive Exception where
  /-- Thrown `NotFoundException`. -/
  | NotFoundException
  /-- Thrown `InvalidLoadFactorException`. -/
  | InvalidLoadFactorException
  /-- The `std::out_of_range` of `vector::at`. -/
  | out_of_range
  /-- A thrown `bool`, as in `throw false;`. -/
  | thrownBool (b : Bool)
  /-- Undefined behaviour: a modulo by zero. -/
  | undefinedBehaviour
  /-- A loop that was still running when its step budget ran out. -/
  | loopBudgetExhausted
  deriving DecidableEq

/-- The `struct KeyValue` of the source: key, value and cached hash code. -/
structure KeyValue (TKey TValue : Type) where
  key : TKey
  value : TValue
  hashcode : Nat

/-- A value-initialised `KeyValue`, as `std::vector<KV>(n)` creates: hash code `0`. -/
def KeyValue.zero {TKey TValue : Type} [Inhabited TKey] [Inhabited TValue] :
    KeyValue TKey TValue :=
  { key := default, value := default, hashcode := 0 }

/-- The checked access `vector::at`. -/
def vectorAt {α : Type} (v : List α) (i : Nat) : Except Exception α :=
  match v[i]? with
  | some x => .ok x
  | none => .error .out_of_range

/-! ## binary32 arithmetic -/

/-- Round to nearest, ties to even, of the quotient `N / D`. -/
def roundNearestEven (N D : Nat) : Nat :=
  if 2 * (N % D) < D then N / D
  else if D < 2 * (N % D) then N / D + 1
  else N / D + (N / D) % 2

/-- The loop of `bitLog`: halves `n` until it is below 2. -/
def bitLogLoop : Nat → Nat → Nat
  | 0, _ => 0
  | fuel + 1, n => if n < 2 then 0 else bitLogLoop fuel (n / 2) + 1

/-- The exponent of the highest set bit of `n` (0 for `n = 0`). -/
def bitLog (n : Nat) : Nat := bitLogLoop n n

/-- Numerator and denominator of `a / b` scaled by the power of two that brings it into
`[2^23, 2^24)`, the range of a 24-bit significand. -/
def binary32Scale (a b : Nat) : Nat × Nat :=
  let N0 := if bitLog a ≤ 23 + bitLog b then a * 2 ^ (23 + bitLog b - bitLog a) else a
  let D0 := if bitLog a ≤ 23 + bitLog b then b else b * 2 ^ (bitLog a - bitLog b - 23)
  if N0 < 2 ^ 23 * D0 then (2 * N0, D0) else (N0, D0)

/-- The binary32 value nearest to `a / b` (ties to even; exponent range unbounded). -/
def roundRatio (a b : Nat) : ℚ :=
  if a = 0 ∨ b = 0 then 0
  else
    let s := binary32Scale a b
    mkRat ((roundNearestEven s.1 s.2 * a * s.2 : ℕ) : ℤ) (b * s.1)

/-- The binary32 value nearest to the rational `x`. -/
def roundBinary32 (x : ℚ) : ℚ :=
  if x < 0 then -roundRatio x.num.natAbs x.den else roundRatio x.num.natAbs x.den

/-- The binary32 quotient `c / (float) n` of the code: both integers are converted to
binary32, and the quotient is rounded to binary32. -/
def float32Div (c n : Nat) : ℚ :=
  let x := roundRatio c 1
  let y := roundRatio n 1
  roundRatio (x.num.natAbs * y.den) (x.den * y.num.natAbs)

/-- The pair `N / D` is `a / b` scaled by `2^p / 2^q` into the significand range. -/
def Scaled (a b N D p q : Nat) : Prop :=
  N = a * 2 ^ p ∧ D = b * 2 ^ q ∧ 2 ^ 23 * D ≤ N ∧ N < 2 ^ 24 * D

/-- The binary32 value of the literal `0.6f`: 5033165 / 8388608. -/
def threshold06 : ℚ := roundBinary32 (mkRat 3 5)

/-- The binary32 value of the literal `0.7f`: 11744051 / 16777216. -/
def threshold07 : ℚ := roundBinary32 (mkRat 7 10)

/-- The binary32 value of the literal `0.95f`: 15938355 / 16777216. -/
def threshold095 : ℚ := roundBinary32 (mkRat 19 20)

/-! ## OpenAddressingHashtable -/

/-- The state of an `OpenAddressingHashtable` (base class fields and `_elements`). -/
structure OpenAddressingHashtable (TKey TValue : Type) where
  _hashFunction : TKey → Nat
  _requestedLoadFactor : ℚ
  _currentCount : Nat
  _elements : List (KeyValue TKey TValue)

namespace OpenAddressingHashtable

variable {TKey TValue : Type}

/-- The constructor: ten value-initialised slots, count `0`; throws for a load factor
`>= 1.0f`. -/
def new [Inhabited TKey] [Inhabited TValue] (loadFactor : ℚ) (hashFunction : TKey → Nat) :
    Except Exception (OpenAddressingHashtable TKey TValue) :=
  if loadFactor ≥ 1 then .error .InvalidLoadFactorException
  else .ok { _hashFunction := hashFunction, _requestedLoadFactor := loadFactor,
             _currentCount := 0, _elements := List.replicate 10 KeyValue.zero }

/-- The `for` loop of `getKeyValue`, started at `offset`; the result is the final value
of `offset`.  Every evaluation of the loop condition costs one unit of the budget. -/
def getKeyValueLoop (elements : List (KeyValue TKey TValue)) (hashValue startIdx : Nat) :
    Nat → Nat → Except Exception Nat
  | 0, _ => .error .loopBudgetExhausted
  | budget + 1, offset =>
    if (startIdx + offset + 1) % elements.length = startIdx then .ok offset
    else
      match vectorAt elements ((startIdx + offset) % elements.length) with
      | .error e => .error e
      | .ok kv =>
        if kv.hashcode ≠ hashValue ∧ kv.hashcode ≠ 0 then
          getKeyValueLoop elements hashValue startIdx budget (offset + 1)
        else .ok offset

/-- The probe `getKeyValue`: the index of the slot the returned reference points to. -/
def getKeyValue (elements : List (KeyValue TKey TValue)) (_key : TKey) (hashValue : Nat) :
    Except Exception Nat :=
  if elements.length = 0 then .error .undefinedBehaviour
  else
    let startIdx := hashValue % elements.length
    match getKeyValueLoop elements hashValue startIdx elements.length 0 with
    | .error e => .error e
    | .ok offset =>
      let finalIdx := (startIdx + offset) % elements.length
      match vectorAt elements finalIdx with
      | .error e => .error e
      | .ok _ => .ok finalIdx

/-- The method `get`. -/
def get (t : OpenAddressingHashtable TKey TValue) (key : TKey) : Except Exception TValue :=
  let hashValue := t._hashFunction key
  match getKeyValue t._elements key hashValue with
  | .error e => .error e
  | .ok idx =>
    match vectorAt t._elements idx with
    | .error e => .error e
    | .ok kv =>
      if kv.hashcode = hashValue then .ok kv.value
      else .error .NotFoundException

/-- The method `exists`: on a miss it executes `throw false;`. -/
def «exists» (t : OpenAddressingHashtable TKey TValue) (key : TKey) : Except Exception Bool :=
  let hashValue := t._hashFunction key
  match getKeyValue t._elements key hashValue with
  | .error e => .error e
  | .ok idx =>
    match vectorAt t._elements idx with
    | .error e => .error e
    | .ok kv =>
      if kv.hashcode = hashValue then .ok true
      else .error (.thrownBool false)

/-- The helper `addToElements`: writes the entry when the probed slot has hash code `0`. -/
def addToElements (elements : List (KeyValue TKey TValue)) (key : TKey) (value : TValue)
    (hashValue : Nat) : Except Exception (List (KeyValue TKey TValue)) :=
  match getKeyValue elements key hashValue with
  | .error e => .error e
  | .ok idx =>
    match vectorAt elements idx with
    | .error e => .error e
    | .ok kv =>
      if kv.hashcode = 0 then
        .ok (elements.set idx { key := key, value := value, hashcode := hashValue })
      else .ok elements

/-- The method `loadFactor`: the binary32 quotient `_currentCount / (float)_elements.size()`. -/
def loadFactor (t : OpenAddressingHashtable TKey TValue) : ℚ :=
  float32Div t._currentCount t._elements.length

/-- The loop of `resizeIfRequired`: re-adds the old slots, in order, to `newElements`. -/
def rehash : List (KeyValue TKey TValue) → List (KeyValue TKey TValue) →
    Except Exception (List (KeyValue TKey TValue))
  | [], newElements => .ok newElements
  | kv :: rest, newElements =>
    match addToElements newElements kv.key kv.value kv.hashcode with
    | .error e => .error e
    | .ok newElements' => rehash rest newElements'

/-- The helper `resizeIfRequired`. -/
def resizeIfRequired [Inhabited TKey] [Inhabited TValue]
    (t : OpenAddressingHashtable TKey TValue) :
    Except Exception (OpenAddressingHashtable TKey TValue) :=
  if t.loadFactor > t._requestedLoadFactor then
    match rehash t._elements (List.replicate (t._elements.length * 2) KeyValue.zero) with
    | .error e => .error e
    | .ok newElements => .ok { t with _elements := newElements }
  else .ok t

/-- The method `add`. -/
def add [Inhabited TKey] [Inhabited TValue] (t : OpenAddressingHashtable TKey TValue)
    (key : TKey) (value : TValue) : Except Exception (OpenAddressingHashtable TKey TValue) :=
  let hashValue := t._hashFunction key
  match addToElements t._elements key value hashValue with
  | .error e => .error e
  | .ok elements =>
    resizeIfRequired { t with _elements := elements, _currentCount := t._currentCount + 1 }

/-- A sequence of `add` calls, first to last. -/
def addAll [Inhabited TKey] [Inhabited TValue] (t : OpenAddressingHashtable TKey TValue) :
    List (TKey × TValue) → Except Exception (OpenAddressingHashtable TKey TValue)
  | [] => .ok t
  | (key, value) :: rest =>
    match t.add key value with
    | .error e => .error e
    | .ok t' => addAll t' rest

/-- Construction followed by a sequence of `add` calls. -/
def build [Inhabited TKey] [Inhabited TValue] (loadFactor : ℚ) (hashFunction : TKey → Nat)
    (adds : List (TKey × TValue)) : Except Exception (OpenAddressingHashtable TKey TValue) :=
  match new loadFactor hashFunction with
  | .error e => .error e
  | .ok t => addAll t adds

end OpenAddressingHashtable

/-! ## ClosedAddressingHashtable -/

/-- The state of a `ClosedAddressingHashtable`: `_elements` is the vector of buckets. -/
structure ClosedAddressingHashtable (TKey TValue : Type) where
  _hashFunction : TKey → Nat
  _requestedLoadFactor : ℚ
  _currentCount : Nat
  _elements : List (List (KeyValue TKey TValue))

namespace ClosedAddressingHashtable

variable {TKey TValue : Type}

/-- The constructor: ten empty buckets, count `0`; its body is empty. -/
def new (loadFactor : ℚ) (hashFunction : TKey → Nat) :
    Except Exception (ClosedAddressingHashtable TKey TValue) :=
  .ok { _hashFunction := hashFunction, _requestedLoadFactor := loadFactor,
        _currentCount := 0, _elements := List.replicate 10 [] }

/-- The bucket `_elements.at(hashValue % _elements.size())` and its index. -/
def bucketOf (elements : List (List (KeyValue TKey TValue))) (hashValue : Nat) :
    Except Exception (Nat × List (KeyValue TKey TValue)) :=
  if elements.length = 0 then .error .undefinedBehaviour
  else
    match vectorAt elements (hashValue % elements.length) with
    | .error e => .error e
    | .ok bucket => .ok (hashValue % elements.length, bucket)

/-- The method `get`: the first entry of the bucket with the hash code of the key. -/
def get (t : ClosedAddressingHashtable TKey TValue) (key : TKey) : Except Exception TValue :=
  let hashValue := t._hashFunction key
  match bucketOf t._elements hashValue with
  | .error e => .error e
  | .ok (_, bucket) =>
    match bucket.find? (fun kv => kv.hashcode = hashValue) with
    | some kv => .ok kv.value
    | none => .error .NotFoundException

/-- The method `exists`. -/
def «exists» (t : ClosedAddressingHashtable TKey TValue) (key : TKey) :
    Except Exception Bool :=
  let hashValue := t._hashFunction key
  match bucketOf t._elements hashValue with
  | .error e => .error e
  | .ok (_, bucket) =>
    match bucket.find? (fun kv => kv.hashcode = hashValue) with
    | some _ => .ok true
    | none => .ok false

/-- The method `loadFactor`: the binary32 quotient `_currentCount / (float)_elements.size()`. -/
def loadFactor (t : ClosedAddressingHashtable TKey TValue) : ℚ :=
  float32Div t._currentCount t._elements.length

/-- The inner loop of `resizeIfRequired`: moves the entries of one old bucket. -/
def rehashBucket : List (KeyValue TKey TValue) → List (List (KeyValue TKey TValue)) →
    Except Exception (List (List (KeyValue TKey TValue)))
  | [], newBuckets => .ok newBuckets
  | kv :: rest, newBuckets =>
    match bucketOf newBuckets kv.hashcode with
    | .error e => .error e
    | .ok (idx, newBucket) => rehashBucket rest (newBuckets.set idx (newBucket ++ [kv]))

/-- The outer loop of `resizeIfRequired`: over the old buckets, in order. -/
def rehash : List (List (KeyValue TKey TValue)) → List (List (KeyValue TKey TValue)) →
    Except Exception (List (List (KeyValue TKey TValue)))
  | [], newBuckets => .ok newBuckets
  | bucket :: rest, newBuckets =>
    match rehashBucket bucket newBuckets with
    | .error e => .error e
    | .ok newBuckets' => rehash rest newBuckets'

/-- The helper `resizeIfRequired`. -/
def resizeIfRequired (t : ClosedAddressingHashtable TKey TValue) :
    Except Exception (ClosedAddressingHashtable TKey TValue) :=
  if t.loadFactor > t._requestedLoadFactor then
    match rehash t._elements (List.replicate (t._elements.length * 2) []) with
    | .error e => .error e
    | .ok newBuckets => .ok { t with _elements := newBuckets }
  else .ok t

/-- The method `add`: appends to the bucket of the key, then `resizeIfRequired`. -/
def add (t : ClosedAddressingHashtable TKey TValue) (key : TKey) (value : TValue) :
    Except Exception (ClosedAddressingHashtable TKey TValue) :=
  let hashValue := t._hashFunction key
  match bucketOf t._elements hashValue with
  | .error e => .error e
  | .ok (idx, bucket) =>
    let newValue : KeyValue TKey TValue := { key := key, value := value, hashcode := hashValue }
    resizeIfRequired { t with _elements := t._elements.set idx (bucket ++ [newValue]),
                              _currentCount := t._currentCount + 1 }

/-- A sequence of `add` calls, first to last. -/
def addAll (t : ClosedAddressingHashtable TKey TValue) :
    List (TKey × TValue) → Except Exception (ClosedAddressingHashtable TKey TValue)
  | [] => .ok t
  | (key, value) :: rest =>
    match t.add key value with
    | .error e => .error e
    | .ok t' => addAll t' rest

/-- Construction followed by a sequence of `add` calls. -/
def build (loadFactor : ℚ) (hashFunction : TKey → Nat) (adds : List (TKey × TValue)) :
    Except Exception (ClosedAddressingHashtable TKey TValue) :=
  match new loadFactor hashFunction with
  | .error e => .error e
  | .ok t => addAll t adds

end ClosedAddressingHashtable

/-- The value of the earliest add whose key has hash code `h`. -/
def earliestAdd {TKey TValue : Type} (hashFunction : TKey → Nat) (adds : List (TKey × TValue))
    (h : Nat) : Option TValue :=
  (adds.find? (fun p => hashFunction p.1 = h)).map Prod.snd

/-- The entry that `add(key, value)` stores: key, value and the hash code of the key. -/
def entryOf {TKey TValue : Type} (hashFunction : TKey → Nat) (p : TKey × TValue) :
    KeyValue TKey TValue :=
  { key := p.1, value := p.2, hashcode := hashFunction p.1 }

/-- The bucket array that holds the entries `log`, each in the bucket of its hash code,
in the order of `log`. -/
def ClosedAddressingHashtable.layout {TKey TValue : Type} (n : Nat)
    (log : List (KeyValue TKey TValue)) : List (List (KeyValue TKey TValue)) :=
  (List.range n).map (fun i => log.filter (fun kv => kv.hashcode % n = i))

/-- The table `t` holds exactly the entries of the calls `adds`, chained in call order. -/
def ClosedAddressingHashtable.Holds {TKey TValue : Type}
    (t : ClosedAddressingHashtable TKey TValue) (hashFunction : TKey → Nat)
    (adds : List (TKey × TValue)) : Prop :=
  t._hashFunction = hashFunction ∧ t._currentCount = adds.length ∧
    ∃ n, 0 < n ∧ t._elements = ClosedAddressingHashtable.layout n (adds.map (entryOf hashFunction))

/-! ## Specification-level definitions for the open table -/

/-- The slot `i` ends a probe for `h`: it holds hash code `h` or is empty (hash code `0`). -/
def OpenAddressingHashtable.Stops {TKey TValue : Type} (arr : List (KeyValue TKey TValue))
    (h i : Nat) : Prop :=
  ∃ kv, arr[i]? = some kv ∧ (kv.hashcode = h ∨ kv.hashcode = 0)

/-- The probe for `h` walks past slot `i`: it is occupied by another hash code. -/
def OpenAddressingHashtable.Passes {TKey TValue : Type} (arr : List (KeyValue TKey TValue))
    (h i : Nat) : Prop :=
  ∃ kv, arr[i]? = some kv ∧ kv.hashcode ≠ h ∧ kv.hashcode ≠ 0

/-- The probe for `h` reaches slot `i` walking only past slots occupied by other hash
codes. -/
def OpenAddressingHashtable.Path {TKey TValue : Type} (arr : List (KeyValue TKey TValue))
    (h i : Nat) : Prop :=
  ∃ d, d < arr.length ∧ (h % arr.length + d) % arr.length = i ∧
    ∀ j, j < d → OpenAddressingHashtable.Passes arr h ((h % arr.length + j) % arr.length)

/-- The number of occupied slots (non-zero cached hash code). -/
def OpenAddressingHashtable.occupied {TKey TValue : Type}
    (arr : List (KeyValue TKey TValue)) : Nat :=
  arr.countP (fun kv => decide (kv.hashcode ≠ 0))

/-- The slot array `arr` is a linear-probing layout of the entries `log`, inserted in the
order of `log`: every occupied slot is reached by the probe of its hash code, holds the
value of the earliest entry with that hash code, and every non-zero hash code of `log` is
stored. -/
structure OpenAddressingHashtable.Probed {TKey TValue : Type}
    (arr log : List (KeyValue TKey TValue)) : Prop where
  pos : 0 < arr.length
  path : ∀ (i : Nat) (kv : KeyValue TKey TValue), arr[i]? = some kv → kv.hashcode ≠ 0 →
    OpenAddressingHashtable.Path arr kv.hashcode i
  value : ∀ (i : Nat) (kv : KeyValue TKey TValue), arr[i]? = some kv → kv.hashcode ≠ 0 →
    (log.find? (fun e => e.hashcode = kv.hashcode)).map (fun e => e.value) = some kv.value
  present : ∀ e ∈ log, e.hashcode ≠ 0 →
    ∃ (i : Nat) (kv : KeyValue TKey TValue), arr[i]? = some kv ∧ kv.hashcode = e.hashcode
  occupied_le : OpenAddressingHashtable.occupied arr ≤ OpenAddressingHashtable.occupied log

/-- The open table `t` is a probing layout of the entries of the calls `adds`, its count is
the number of calls, and it has room for one more entry. -/
def OpenAddressingHashtable.Holds {TKey TValue : Type}
    (t : OpenAddressingHashtable TKey TValue) (hashFunction : TKey → Nat)
    (adds : List (TKey × TValue)) : Prop :=
  t._hashFunction = hashFunction ∧ t._currentCount = adds.length ∧
    t._requestedLoadFactor < 1 ∧ t._currentCount < t._elements.length ∧
    OpenAddressingHashtable.Probed t._elements (adds.map (entryOf hashFunction))

/-! ## Specification-level definitions: capacity, stored hash codes, examples -/

/-- The capacity after `k` adds, as the rule of the resize policy gives it: 10 at
construction, and after the add number `k + 1` double the capacity `n` before it when
the binary32 quotient `(k + 1) / n` exceeds the threshold, else `n`. -/
def capacityAfter (threshold : ℚ) : Nat → Nat
  | 0 => 10
  | k + 1 =>
    if float32Div (k + 1) (capacityAfter threshold k) > threshold
    then capacityAfter threshold k * 2 else capacityAfter threshold k

/-- The non-zero hash codes of the entries `log`, as a set. -/
def storedHashes {TKey TValue : Type} (log : List (KeyValue TKey TValue)) : Finset Nat :=
  (log.map (fun e => e.hashcode)).toFinset.erase 0

/-- An example table for the probe: three slots, all occupied. -/
def fullTable : OpenAddressingHashtable Nat Nat :=
  { _hashFunction := fun k => k, _requestedLoadFactor := threshold06, _currentCount := 3,
    _elements := [{ key := 1, value := 1, hashcode := 1 }, { key := 2, value := 2, hashcode := 2 },
      { key := 3, value := 3, hashcode := 3 }] }

/-- An example slot array for the probe: hash codes 5, 0 (empty), 9, 6. -/
def mixedSlots : List (KeyValue Nat Nat) :=
  [{ key := 5, value := 1, hashcode := 5 }, { key := 0, value := 0, hashcode := 0 },
    { key := 9, value := 3, hashcode := 9 }, { key := 6, value := 4, hashcode := 6 }]

/-! ## Lemmas: binary32 rounding -/

theorem bitLogLoop_spec : ∀ (fuel n : Nat), n ≤ fuel → 0 < n →
    2 ^ bitLogLoop fuel n ≤ n ∧ n < 2 ^ (bitLogLoop fuel n + 1) := by
  intro fuel
  induction fuel with
  | zero => intro n h1 h2; omega
  | succ fuel ih =>
    intro n h1 h2
    rw [bitLogLoop]
    by_cases hn : n < 2
    · rw [if_pos hn]
      have : n = 1 := by omega
      subst this
      decide
    · rw [if_neg hn]
      obtain ⟨hlo, hhi⟩ := ih (n / 2) (by omega) (by omega)
      constructor
      · rw [pow_succ]
        have := (Nat.le_div_iff_mul_le (by decide : 0 < 2)).mp hlo
        omega
      · rw [pow_succ]
        have := (Nat.div_lt_iff_lt_mul (by decide : 0 < 2)).mp hhi
        omega

theorem bitLog_spec {n : Nat} (hn : 0 < n) : 2 ^ bitLog n ≤ n ∧ n < 2 ^ (bitLog n + 1) :=
  bitLogLoop_spec n n (le_refl n) hn

theorem roundNearestEven_one (k : Nat) : roundNearestEven k 1 = k := by
  simp [roundNearestEven, Nat.mod_one]

theorem roundNearestEven_le_succ (N D : Nat) : roundNearestEven N D ≤ N / D + 1 := by
  unfold roundNearestEven
  split
  · omega
  · split
    · omega
    · have := Nat.mod_lt (N / D) (by decide : 0 < 2)
      omega

theorem div_le_roundNearestEven (N D : Nat) : N / D ≤ roundNearestEven N D := by
  unfold roundNearestEven
  split
  · omega
  · split <;> omega

/-- Rounding to nearest is monotone in the quotient. -/
theorem roundNearestEven_mono {N1 D1 N2 D2 : Nat} (h1 : 0 < D1) (h2 : 0 < D2)
    (h : N1 * D2 ≤ N2 * D1) : roundNearestEven N1 D1 ≤ roundNearestEven N2 D2 := by
  have hq1 := Nat.div_add_mod N1 D1
  have hq2 := Nat.div_add_mod N2 D2
  have hr1 := Nat.mod_lt N1 h1
  have hr2 := Nat.mod_lt N2 h2
  have hqle : N1 / D1 ≤ N2 / D2 := by
    rw [Nat.le_div_iff_mul_le h2]
    have h3 : N1 / D1 * D1 ≤ N1 := Nat.div_mul_le_self N1 D1
    have h4 : N1 / D1 * D2 * D1 ≤ N2 * D1 := by
      calc N1 / D1 * D2 * D1 = N1 / D1 * D1 * D2 := by ring
        _ ≤ N1 * D2 := Nat.mul_le_mul_right D2 h3
        _ ≤ N2 * D1 := h
    exact Nat.le_of_mul_le_mul_right h4 h1
  rcases Nat.lt_or_eq_of_le hqle with hlt | heq
  · calc roundNearestEven N1 D1 ≤ N1 / D1 + 1 := roundNearestEven_le_succ N1 D1
      _ ≤ N2 / D2 := hlt
      _ ≤ roundNearestEven N2 D2 := div_le_roundNearestEven N2 D2
  · -- equal quotients: compare the remainders
    have hrem : N1 % D1 * D2 ≤ N2 % D2 * D1 := by
      have e1 : N1 * D2 = (N1 / D1) * (D1 * D2) + N1 % D1 * D2 := by
        conv_lhs => rw [← hq1]
        ring
      have e2 : N2 * D1 = (N2 / D2) * (D1 * D2) + N2 % D2 * D1 := by
        conv_lhs => rw [← hq2]
        ring
      rw [e1, e2, heq] at h
      omega
    unfold roundNearestEven
    rw [heq]
    by_cases c1 : 2 * (N1 % D1) < D1
    · rw [if_pos c1]
      split
      · omega
      · split <;> omega
    · rw [if_neg c1]
      have hge : D2 ≤ 2 * (N2 % D2) := by
        by_contra hc
        have hc' : 2 * (N2 % D2) < D2 := by omega
        have : 2 * (N2 % D2) * D1 < D2 * D1 := Nat.mul_lt_mul_of_pos_right hc' h1
        have h5 : D1 * D2 ≤ 2 * (N1 % D1) * D2 := Nat.mul_le_mul_right D2 (by omega)
        nlinarith
      by_cases c2 : D1 < 2 * (N1 % D1)
      · rw [if_pos c2]
        have hgt : D2 < 2 * (N2 % D2) := by
          by_contra hc
          have hc' : 2 * (N2 % D2) ≤ D2 := by omega
          have : 2 * (N2 % D2) * D1 ≤ D2 * D1 := Nat.mul_le_mul_right D1 hc'
          have h5 : D1 * D2 < 2 * (N1 % D1) * D2 := Nat.mul_lt_mul_of_pos_right c2 h2
          nlinarith
        rw [if_neg (by omega), if_pos hgt]
      · rw [if_neg c2, if_neg (by omega)]
        split <;> omega

theorem roundNearestEven_ge {N D k : Nat} (hD : 0 < D) (h : k * D ≤ N) :
    k ≤ roundNearestEven N D := by
  have := @roundNearestEven_mono k 1 N D (by decide) hD (by omega)
  rwa [roundNearestEven_one] at this

theorem roundNearestEven_le {N D k : Nat} (hD : 0 < D) (h : N ≤ k * D) :
    roundNearestEven N D ≤ k := by
  have := @roundNearestEven_mono N D k 1 hD (by decide) (by omega)
  rwa [roundNearestEven_one] at this

theorem binary32Scale_spec {a b : Nat} (ha : 0 < a) (hb : 0 < b) :
    ∃ p q, Scaled a b (binary32Scale a b).1 (binary32Scale a b).2 p q := by
  obtain ⟨A1, A2⟩ := bitLog_spec ha
  obtain ⟨B1, B2⟩ := bitLog_spec hb
  rw [pow_succ] at A2 B2
  -- first stage: within a factor two of the range
  have stage : ∃ N0 D0 p q, N0 = a * 2 ^ p ∧ D0 = b * 2 ^ q ∧ 2 ^ 23 * D0 < 2 * N0 ∧
      N0 < 2 ^ 24 * D0 ∧
      binary32Scale a b = if N0 < 2 ^ 23 * D0 then (2 * N0, D0) else (N0, D0) := by
    by_cases hc : bitLog a ≤ 23 + bitLog b
    · refine ⟨a * 2 ^ (23 + bitLog b - bitLog a), b, 23 + bitLog b - bitLog a, 0, rfl,
        by simp, ?_, ?_, ?_⟩
      · have hpk : 2 ^ bitLog a * 2 ^ (23 + bitLog b - bitLog a) = 2 ^ 23 * 2 ^ bitLog b := by
          rw [← pow_add, ← pow_add]
          congr 1
          omega
        have h1 : 2 ^ bitLog a * 2 ^ (23 + bitLog b - bitLog a)
            ≤ a * 2 ^ (23 + bitLog b - bitLog a) := Nat.mul_le_mul_right _ A1
        omega
      · have hpk : 2 ^ bitLog a * 2 ^ (23 + bitLog b - bitLog a) = 2 ^ 23 * 2 ^ bitLog b := by
          rw [← pow_add, ← pow_add]
          congr 1
          omega
        have hK : 0 < 2 ^ (23 + bitLog b - bitLog a) := by positivity
        have h1 : a * 2 ^ (23 + bitLog b - bitLog a)
            < 2 ^ bitLog a * 2 * 2 ^ (23 + bitLog b - bitLog a) :=
          Nat.mul_lt_mul_of_pos_right A2 hK
        have h2 : 2 ^ bitLog a * 2 * 2 ^ (23 + bitLog b - bitLog a)
            = 2 * (2 ^ bitLog a * 2 ^ (23 + bitLog b - bitLog a)) := by ring
        omega
      · simp only [binary32Scale, if_pos hc]
    · refine ⟨a, b * 2 ^ (bitLog a - bitLog b - 23), 0, bitLog a - bitLog b - 23, by simp,
        rfl, ?_, ?_, ?_⟩
      · have hpk : 2 ^ bitLog a = 2 ^ 23 * (2 ^ bitLog b * 2 ^ (bitLog a - bitLog b - 23)) := by
          rw [← pow_add, ← pow_add]
          congr 1
          omega
        have hK : 0 < 2 ^ (bitLog a - bitLog b - 23) := by positivity
        have h1 : b * 2 ^ (bitLog a - bitLog b - 23)
            < 2 ^ bitLog b * 2 * 2 ^ (bitLog a - bitLog b - 23) :=
          Nat.mul_lt_mul_of_pos_right B2 hK
        have h2 : 2 ^ bitLog b * 2 * 2 ^ (bitLog a - bitLog b - 23)
            = 2 * (2 ^ bitLog b * 2 ^ (bitLog a - bitLog b - 23)) := by ring
        omega
      · have hpk : 2 ^ bitLog a = 2 ^ 23 * (2 ^ bitLog b * 2 ^ (bitLog a - bitLog b - 23)) := by
          rw [← pow_add, ← pow_add]
          congr 1
          omega
        have h1 : 2 ^ bitLog b * 2 ^ (bitLog a - bitLog b - 23)
            ≤ b * 2 ^ (bitLog a - bitLog b - 23) := Nat.mul_le_mul_right _ B1
        omega
      · simp only [binary32Scale, if_neg hc]
  obtain ⟨N0, D0, p, q, hN, hD, hlo, hhi, heq⟩ := stage
  rw [heq]
  by_cases hc : N0 < 2 ^ 23 * D0
  · rw [if_pos hc]
    refine ⟨p + 1, q, ?_, hD, ?_, ?_⟩
    · show 2 * N0 = a * 2 ^ (p + 1)
      rw [hN, pow_succ]
      ring
    · show 2 ^ 23 * D0 ≤ 2 * N0
      omega
    · show 2 * N0 < 2 ^ 24 * D0
      omega
  · rw [if_neg hc]
    exact ⟨p, q, hN, hD, by show 2 ^ 23 * D0 ≤ N0; omega, hhi⟩

/-- Of two scalings of ratios in order, the smaller ratio has the larger shift. -/
theorem scaled_shift_le {a b N D p q a' b' N' D' p' q' : Nat} (hb : 0 < b)
    (hb' : 0 < b') (h : Scaled a b N D p q) (h' : Scaled a' b' N' D' p' q')
    (hle : a * b' ≤ a' * b) : p' + q ≤ p + q' := by
  obtain ⟨hN, hD, hlo, _⟩ := h
  obtain ⟨hN', hD', _, hhi'⟩ := h'
  by_contra hc
  have hlt : p + q' + 1 ≤ p' + q := by omega
  have hDpos : 0 < D := by rw [hD]; positivity
  have hD'pos : 0 < D' := by rw [hD']; positivity
  -- N' * D ≥ 2 * (N * D')
  have hpow : 2 * (2 ^ p * 2 ^ q') ≤ 2 ^ p' * 2 ^ q := by
    rw [← pow_add, ← pow_add, ← pow_succ']
    exact Nat.pow_le_pow_right (by decide) hlt
  have h1 : 2 * (N * D') ≤ N' * D := by
    have e1 : 2 * (N * D') = (a * b') * (2 * (2 ^ p * 2 ^ q')) := by rw [hN, hD']; ring
    have e2 : N' * D = (a' * b) * (2 ^ p' * 2 ^ q) := by rw [hN', hD]; ring
    rw [e1, e2]
    exact Nat.mul_le_mul hle hpow
  have h2 : 2 ^ 23 * D * D' ≤ N * D' := Nat.mul_le_mul_right D' hlo
  have h3 : N' * D < 2 ^ 24 * D' * D := Nat.mul_lt_mul_of_pos_right hhi' hDpos
  have e3 : 2 ^ 24 * D' * D = 2 * (2 ^ 23 * D * D') := by ring
  omega

theorem scaled_pos {a b N D p q : Nat} (hb : 0 < b) (h : Scaled a b N D p q) :
    0 < D ∧ 2 ^ 23 ≤ roundNearestEven N D ∧ roundNearestEven N D ≤ 2 ^ 24 := by
  obtain ⟨_, hD, hlo, hhi⟩ := h
  have hDpos : 0 < D := by rw [hD]; positivity
  exact ⟨hDpos, roundNearestEven_ge hDpos hlo, roundNearestEven_le hDpos (le_of_lt hhi)⟩

/-- The value of a scaling: the rounded significand shifted back, times `2^p 2^q'`. -/
theorem scaled_round_le {a b N D p q a' b' N' D' p' q' : Nat} (hb : 0 < b)
    (hb' : 0 < b') (h : Scaled a b N D p q) (h' : Scaled a' b' N' D' p' q')
    (hle : a * b' ≤ a' * b) :
    roundNearestEven N D * (2 ^ q * 2 ^ p') ≤ roundNearestEven N' D' * (2 ^ q' * 2 ^ p) := by
  have hshift := scaled_shift_le hb hb' h h' hle
  obtain ⟨hDpos, _, hm⟩ := scaled_pos hb h
  obtain ⟨hD'pos, hm', _⟩ := scaled_pos hb' h'
  rcases Nat.lt_or_eq_of_le hshift with hlt | heq
  · -- larger shift: significands at most a factor two apart
    have hpow : 2 * (2 ^ q * 2 ^ p') ≤ 2 ^ q' * 2 ^ p := by
      rw [← pow_add, ← pow_add, ← pow_succ']
      exact Nat.pow_le_pow_right (by decide) (by omega)
    calc roundNearestEven N D * (2 ^ q * 2 ^ p')
        ≤ 2 ^ 24 * (2 ^ q * 2 ^ p') := Nat.mul_le_mul_right _ hm
      _ = 2 ^ 23 * (2 * (2 ^ q * 2 ^ p')) := by ring
      _ ≤ 2 ^ 23 * (2 ^ q' * 2 ^ p) := Nat.mul_le_mul_left _ hpow
      _ ≤ roundNearestEven N' D' * (2 ^ q' * 2 ^ p) := Nat.mul_le_mul_right _ hm'
  · have hpow : 2 ^ q * 2 ^ p' = 2 ^ q' * 2 ^ p := by
      rw [← pow_add, ← pow_add]
      congr 1
      omega
    have hpow2 : 2 ^ p * 2 ^ q' = 2 ^ p' * 2 ^ q := by
      rw [← pow_add, ← pow_add]
      congr 1
      omega
    have hcross : N * D' ≤ N' * D := by
      obtain ⟨hN, hD, _, _⟩ := h
      obtain ⟨hN', hD', _, _⟩ := h'
      have e1 : N * D' = (a * b') * (2 ^ p * 2 ^ q') := by rw [hN, hD']; ring
      have e2 : N' * D = (a' * b) * (2 ^ p' * 2 ^ q) := by rw [hN', hD]; ring
      rw [e1, e2, hpow2]
      exact Nat.mul_le_mul_right _ hle
    rw [hpow]
    exact Nat.mul_le_mul_right _ (roundNearestEven_mono hDpos hD'pos hcross)

/-- The value `roundRatio` computes, from its own scaling. -/
theorem roundRatio_eq_own {a b : Nat} (ha : 0 < a) (hb : 0 < b) :
    ∃ N D p q, Scaled a b N D p q ∧
      roundRatio a b = (roundNearestEven N D : ℚ) * 2 ^ q / 2 ^ p := by
  obtain ⟨p, q, h⟩ := binary32Scale_spec ha hb
  refine ⟨_, _, p, q, h, ?_⟩
  obtain ⟨hN, hD, _, _⟩ := h
  have ha' : (a : ℚ) ≠ 0 := by exact_mod_cast (by omega : a ≠ 0)
  have hb' : (b : ℚ) ≠ 0 := by exact_mod_cast (by omega : b ≠ 0)
  unfold roundRatio
  rw [if_neg (by omega)]
  simp only
  rw [Rat.mkRat_eq_div, hN, hD]
  push_cast
  field_simp
  ring

/-- The value of `roundRatio`, from any scaling. -/
theorem roundRatio_eq {a b N D p q : Nat} (ha : 0 < a) (hb : 0 < b)
    (h : Scaled a b N D p q) :
    roundRatio a b = (roundNearestEven N D : ℚ) * 2 ^ q / 2 ^ p := by
  obtain ⟨N0, D0, p0, q0, h0, hval⟩ := roundRatio_eq_own ha hb
  have h1 := scaled_round_le hb hb h0 h (le_refl _)
  have h2 := scaled_round_le hb hb h h0 (le_refl _)
  have heq : roundNearestEven N0 D0 * (2 ^ q0 * 2 ^ p)
      = roundNearestEven N D * (2 ^ q * 2 ^ p0) := le_antisymm h1 h2
  rw [hval, div_eq_div_iff (by positivity) (by positivity)]
  have := congrArg (fun n : ℕ => (n : ℚ)) heq
  push_cast at this
  linarith

theorem roundRatio_nonneg (a b : Nat) : 0 ≤ roundRatio a b := by
  by_cases h : a = 0 ∨ b = 0
  · rw [roundRatio, if_pos h]
  · obtain ⟨N, D, p, q, _, hval⟩ := @roundRatio_eq_own a b (by omega) (by omega)
    rw [hval]
    positivity

theorem roundRatio_pos {a b : Nat} (ha : 0 < a) (hb : 0 < b) : 0 < roundRatio a b := by
  obtain ⟨N, D, p, q, h, hval⟩ := roundRatio_eq_own ha hb
  obtain ⟨_, hm, _⟩ := scaled_pos hb h
  have : (0 : ℚ) < (roundNearestEven N D : ℚ) := by
    exact_mod_cast (lt_of_lt_of_le (by positivity) hm)
  rw [hval]
  positivity

/-- Rounding to binary32 is monotone. -/
theorem roundRatio_mono {a b a' b' : Nat} (hb : 0 < b) (hb' : 0 < b')
    (hle : a * b' ≤ a' * b) : roundRatio a b ≤ roundRatio a' b' := by
  by_cases ha : a = 0
  · subst ha
    rw [roundRatio, if_pos (Or.inl rfl)]
    exact roundRatio_nonneg _ _
  · have ha0 : 0 < a := by omega
    have ha' : 0 < a' := by
      by_contra hc
      have : a' = 0 := by omega
      subst this
      have : 0 < a * b' := Nat.mul_pos ha0 hb'
      omega
    obtain ⟨N, D, p, q, h, hval⟩ := roundRatio_eq_own ha0 hb
    obtain ⟨N', D', p', q', h', hval'⟩ := roundRatio_eq_own ha' hb'
    have hr := scaled_round_le hb hb' h h' hle
    rw [hval, hval', div_le_div_iff₀ (by positivity) (by positivity)]
    have : ((roundNearestEven N D * (2 ^ q * 2 ^ p') : ℕ) : ℚ)
        ≤ ((roundNearestEven N' D' * (2 ^ q' * 2 ^ p) : ℕ) : ℚ) := by exact_mod_cast hr
    push_cast at this
    linarith

/-- The rounded value depends on the ratio only. -/
theorem roundRatio_congr {a b a' b' : Nat} (hb : 0 < b) (hb' : 0 < b')
    (h : a * b' = a' * b) : roundRatio a b = roundRatio a' b' :=
  le_antisymm (roundRatio_mono hb hb' (le_of_eq h)) (roundRatio_mono hb' hb (le_of_eq h.symm))

/-- Doubling is exact in binary floating point. -/
theorem roundRatio_double {a b : Nat} (ha : 0 < a) (hb : 0 < b) :
    roundRatio (2 * a) b = 2 * roundRatio a b := by
  obtain ⟨N, D, p, q, h, hval⟩ := @roundRatio_eq_own (2 * a) b (by omega) hb
  have h' : Scaled a b N D (p + 1) q := by
    obtain ⟨hN, hD, hlo, hhi⟩ := h
    exact ⟨by rw [hN, pow_succ]; ring, hD, hlo, hhi⟩
  rw [hval, roundRatio_eq ha hb h', pow_succ]
  field_simp
  ring

theorem roundRatio_mono_rat {a b a' b' : Nat} (hb : 0 < b) (hb' : 0 < b')
    (hle : (a : ℚ) / b ≤ (a' : ℚ) / b') : roundRatio a b ≤ roundRatio a' b' := by
  apply roundRatio_mono hb hb'
  have hbq : (0 : ℚ) < b := by exact_mod_cast hb
  have hbq' : (0 : ℚ) < b' := by exact_mod_cast hb'
  rw [div_le_div_iff₀ hbq hbq'] at hle
  exact_mod_cast hle

theorem natAbs_num_div_den {x : ℚ} (hx : 0 ≤ x) : ((x.num.natAbs : ℕ) : ℚ) / x.den = x := by
  have hnum : 0 ≤ x.num := Rat.num_nonneg.mpr hx
  have h1 : ((x.num.natAbs : ℕ) : ℤ) = x.num := Int.natAbs_of_nonneg hnum
  have : ((x.num.natAbs : ℕ) : ℚ) = ((x.num : ℤ) : ℚ) :=
    calc ((x.num.natAbs : ℕ) : ℚ) = (((x.num.natAbs : ℕ) : ℤ) : ℚ) := (Int.cast_natCast _).symm
      _ = ((x.num : ℤ) : ℚ) := by rw [h1]
  rw [this]
  exact Rat.num_div_den x

theorem natAbs_num_pos {x : ℚ} (hx : 0 < x) : 0 < x.num.natAbs := by
  have : 0 < x.num := Rat.num_pos.mpr hx
  omega

/-- The rounded quotient of two non-negative binary32 values is monotone in the exact
quotient. -/
theorem roundQuotient_mono {x y x' y' : ℚ} (hx : 0 ≤ x) (hy : 0 < y) (hx' : 0 ≤ x')
    (hy' : 0 < y') (hle : x / y ≤ x' / y') :
    roundRatio (x.num.natAbs * y.den) (x.den * y.num.natAbs)
      ≤ roundRatio (x'.num.natAbs * y'.den) (x'.den * y'.num.natAbs) := by
  have key : ∀ {u v : ℚ}, 0 ≤ u → 0 < v →
      ((u.num.natAbs * v.den : ℕ) : ℚ) / ((u.den * v.num.natAbs : ℕ) : ℚ) = u / v := by
    intro u v hu hv
    have e1 := natAbs_num_div_den hu
    have e2 := natAbs_num_div_den (le_of_lt hv)
    have hud : (u.den : ℚ) ≠ 0 := by exact_mod_cast u.den_nz
    have hvd : (v.den : ℚ) ≠ 0 := by exact_mod_cast v.den_nz
    have hvn : ((v.num.natAbs : ℕ) : ℚ) ≠ 0 := by
      exact_mod_cast (by have := natAbs_num_pos hv; omega : v.num.natAbs ≠ 0)
    conv_rhs => rw [← e1, ← e2]
    push_cast
    field_simp
  apply roundRatio_mono_rat
  · exact Nat.mul_pos x.den_pos (natAbs_num_pos hy)
  · exact Nat.mul_pos x'.den_pos (natAbs_num_pos hy')
  · rw [key hx hy, key hx' hy']
    exact hle

theorem float32Div_zero (n : Nat) : float32Div 0 n = 0 := by
  simp [float32Div, roundRatio]

/-- A count equal to the size has binary32 quotient 1. -/
theorem float32Div_self {n : Nat} (hn : 0 < n) : float32Div n n = 1 := by
  have hpos := roundRatio_pos hn (by decide : 0 < 1)
  have hnum := natAbs_num_pos hpos
  have hden := (roundRatio n 1).den_pos
  unfold float32Div
  simp only
  rw [roundRatio_congr (Nat.mul_pos hden hnum) (by decide : 0 < 1)
    (show (roundRatio n 1).num.natAbs * (roundRatio n 1).den * 1
      = 1 * ((roundRatio n 1).den * (roundRatio n 1).num.natAbs) by ring)]
  decide

/-- Adding one entry and doubling the size does not raise the binary32 quotient of a
non-empty table. -/
theorem float32Div_succ_double {c n : Nat} (hc : 1 ≤ c) (hn : 0 < n) :
    float32Div (c + 1) (2 * n) ≤ float32Div c n := by
  have hx := roundRatio_pos (by omega : 0 < c) (by decide : 0 < 1)
  have hy := roundRatio_pos hn (by decide : 0 < 1)
  have hx1 := roundRatio_pos (by omega : 0 < c + 1) (by decide : 0 < 1)
  have hy2 : roundRatio (2 * n) 1 = 2 * roundRatio n 1 := roundRatio_double hn (by decide)
  have hx2 : roundRatio (c + 1) 1 ≤ 2 * roundRatio c 1 := by
    rw [← roundRatio_double (by omega : 0 < c) (by decide : 0 < 1)]
    exact roundRatio_mono (by decide) (by decide) (by omega)
  unfold float32Div
  simp only
  apply roundQuotient_mono (le_of_lt hx1) (by rw [hy2]; positivity) (le_of_lt hx) hy
  rw [hy2, div_le_div_iff₀ (by positivity) hy]
  nlinarith

/-- A binary32 value bounds the rounding of every ratio it bounds. -/
theorem roundRatio_le_of_le {a b : Nat} {t : ℚ} (hb : 0 < b) (hbin : roundBinary32 t = t)
    (hle : (a : ℚ) / b ≤ t) : roundRatio a b ≤ t := by
  have ht : 0 ≤ t := le_trans (by positivity) hle
  rw [roundBinary32, if_neg (not_lt.mpr ht)] at hbin
  rw [← hbin]
  apply roundRatio_mono_rat hb t.den_pos
  rw [natAbs_num_div_den ht]
  exact hle

theorem float32Div_one_twenty : float32Div 1 20 = roundRatio 1 20 := by decide

/-- Values of the binary32 quotient: 7 / 10 rounds to 0.7f and 6 / 10 to 0.6f, 7 / 20 and
1 / 10 round to 11744051 / 2^25 and 13421773 / 2^27, and the conversion of 2^24 + 1 rounds
to 2^24. -/
theorem float32Div_values :
    float32Div 7 10 = threshold07 ∧ float32Div 6 10 = threshold06 ∧
    float32Div 7 20 = mkRat 11744051 33554432 ∧ float32Div 1 10 = mkRat 13421773 134217728 ∧
    float32Div 16777217 1 = 16777216 ∧ float32Div 16777219 1 = 16777220 := by
  decide

theorem threshold_values :
    threshold06 = mkRat 5033165 8388608 ∧ threshold07 = mkRat 11744051 16777216 ∧
    threshold095 = mkRat 15938355 16777216 ∧
    roundBinary32 threshold06 = threshold06 ∧ roundBinary32 threshold07 = threshold07 ∧
    roundBinary32 (mkRat 1 64) = mkRat 1 64 ∧ roundBinary32 3 = 3 ∧ roundBinary32 1 = 1 := by
  decide

/-! ## Lemmas: the earliest add -/

theorem find?_entryOf {TKey TValue : Type} (hashFunction : TKey → Nat)
    (adds : List (TKey × TValue)) (h : Nat) :
    (adds.map (entryOf hashFunction)).find? (fun kv => kv.hashcode = h)
      = (adds.find? (fun p => hashFunction p.1 = h)).map (entryOf hashFunction) := by
  rw [List.find?_map]
  rfl

theorem earliestAdd_eq_find?_entryOf {TKey TValue : Type} (hashFunction : TKey → Nat)
    (adds : List (TKey × TValue)) (h : Nat) :
    earliestAdd hashFunction adds h
      = ((adds.map (entryOf hashFunction)).find? (fun kv => kv.hashcode = h)).map
          (fun e => e.value) := by
  rw [find?_entryOf, earliestAdd, Option.map_map]
  rfl

theorem earliestAdd_eq_none_iff {TKey TValue : Type} (hashFunction : TKey → Nat)
    (adds : List (TKey × TValue)) (h : Nat) :
    earliestAdd hashFunction adds h = none ↔ ∀ p ∈ adds, hashFunction p.1 ≠ h := by
  simp [earliestAdd, List.find?_eq_none]

theorem isSome_earliestAdd {TKey TValue : Type} (hashFunction : TKey → Nat)
    (adds : List (TKey × TValue)) (h : Nat) :
    (earliestAdd hashFunction adds h).isSome
      = adds.any (fun p => decide (hashFunction p.1 = h)) := by
  unfold earliestAdd
  induction adds with
  | nil => rfl
  | cons a rest ih =>
    by_cases ha : hashFunction a.1 = h
    · simp [List.find?_cons, ha]
    · simpa [List.find?_cons, ha] using ih

theorem earliestAdd_of_nodup {TKey TValue : Type} (hashFunction : TKey → Nat) :
    ∀ (adds : List (TKey × TValue)), (adds.map (fun q => hashFunction q.1)).Nodup →
      ∀ p ∈ adds, earliestAdd hashFunction adds (hashFunction p.1) = some p.2 := by
  intro adds
  induction adds with
  | nil => intro _ p hp; cases hp
  | cons a rest ih =>
    intro hnd p hp
    rw [List.map_cons, List.nodup_cons] at hnd
    rcases List.mem_cons.mp hp with rfl | hmem
    · simp [earliestAdd]
    · have hne : hashFunction a.1 ≠ hashFunction p.1 := by
        intro heq
        apply hnd.1
        rw [heq]
        exact List.mem_map_of_mem (fun q => hashFunction q.1) hmem
      have := ih hnd.2 p hmem
      simp only [earliestAdd] at this ⊢
      rw [List.find?_cons]
      simp only [hne, decide_False]
      exact this

/-! ## Lemmas: the chained table -/

namespace ClosedAddressingHashtable

variable {TKey TValue : Type}

theorem layout_length (n : Nat) (log : List (KeyValue TKey TValue)) :
    (layout n log).length = n := by
  simp [layout]

theorem layout_getElem? {n i : Nat} (log : List (KeyValue TKey TValue)) (h : i < n) :
    (layout n log)[i]? = some (log.filter (fun kv => kv.hashcode % n = i)) := by
  simp [layout, List.getElem?_range h]

theorem bucketOf_eq {m : Nat} (hm : 0 < m) (nb : List (List (KeyValue TKey TValue)))
    (hlen : nb.length = m) (h : Nat) :
    bucketOf nb h = .ok (h % m, nb.getD (h % m) []) := by
  subst hlen
  have hlt : h % nb.length < nb.length := Nat.mod_lt _ hm
  have hne : nb.length ≠ 0 := by omega
  simp [bucketOf, hne, vectorAt, List.getElem?_eq_getElem hlt, List.getD_eq_getElem?_getD]

theorem rehashBucket_eq {m : Nat} (hm : 0 < m) :
    ∀ (es : List (KeyValue TKey TValue)) (nb : List (List (KeyValue TKey TValue))),
      nb.length = m →
      rehashBucket es nb = .ok ((List.range m).map
        (fun j => nb.getD j [] ++ es.filter (fun kv => kv.hashcode % m = j))) := by
  intro es
  induction es with
  | nil =>
    intro nb hlen
    simp only [rehashBucket, List.filter_nil, List.append_nil]
    congr 1
    apply List.ext_getElem?
    intro j
    by_cases hj : j < m
    · simp [List.getElem?_range hj, List.getD_eq_getElem?_getD,
        List.getElem?_eq_getElem (hlen ▸ hj)]
    · have h1 : nb.length ≤ j := by omega
      have h2 : (List.range m).length ≤ j := by simp; omega
      simp [List.getElem?_eq_none h1, List.getElem?_eq_none h2]
  | cons x rest ih =>
    intro nb hlen
    rw [rehashBucket, bucketOf_eq hm nb hlen]
    simp only
    rw [ih _ (by simp [hlen])]
    congr 1
    apply List.map_congr_left
    intro j hj
    have hj' : j < m := List.mem_range.mp hj
    by_cases hji : x.hashcode % m = j
    · subst hji
      simp [List.getD_eq_getElem?_getD, List.getElem?_set, hlen, hj']
    · have hne : ¬ (x.hashcode % m = j) := hji
      simp [List.getD_eq_getElem?_getD, List.getElem?_set, hji]

theorem rehash_eq {m : Nat} (hm : 0 < m) :
    ∀ (bs : List (List (KeyValue TKey TValue))) (nb : List (List (KeyValue TKey TValue))),
      nb.length = m →
      rehash bs nb = .ok ((List.range m).map
        (fun j => nb.getD j [] ++ bs.flatten.filter (fun kv => kv.hashcode % m = j))) := by
  intro bs
  induction bs with
  | nil =>
    intro nb hlen
    have := rehashBucket_eq hm ([] : List (KeyValue TKey TValue)) nb hlen
    simpa [rehash, rehashBucket] using this
  | cons b rest ih =>
    intro nb hlen
    rw [rehash, rehashBucket_eq hm b nb hlen]
    simp only
    rw [ih _ (by simp)]
    congr 1
    apply List.map_congr_left
    intro j hj
    have hj' : j < m := List.mem_range.mp hj
    simp [List.getD_eq_getElem?_getD, List.getElem?_range hj']

theorem flatten_layout_filter (n : Nat) (log : List (KeyValue TKey TValue))
    (g : KeyValue TKey TValue → Bool) (i0 : Nat) (hi0 : i0 < n)
    (hg : ∀ kv, g kv = true → kv.hashcode % n = i0) :
    (layout n log).flatten.filter g = log.filter g := by
  have key : ∀ k, ((List.range k).map
      (fun i => (log.filter (fun kv => kv.hashcode % n = i)).filter g)).flatten
        = if i0 < k then log.filter g else [] := by
    intro k
    induction k with
    | zero => simp
    | succ k ih =>
      rw [List.range_succ, List.map_append, List.flatten_append, ih]
      simp only [List.map_cons, List.map_nil, List.flatten_cons, List.flatten_nil,
        List.append_nil]
      by_cases h2 : i0 = k
      · subst h2
        have h3 : List.filter g (List.filter (fun kv => decide (kv.hashcode % n = i0)) log)
            = List.filter g log := by
          rw [List.filter_filter]
          apply List.filter_congr
          intro x _
          by_cases hx : g x = true
          · simp [hx, hg x hx]
          · simp [hx]
        rw [h3]
        simp
      · have h3 : List.filter g (List.filter (fun kv => decide (kv.hashcode % n = k)) log)
            = [] := by
          rw [List.filter_eq_nil_iff]
          intro a ha hga
          have := hg a hga
          simp at ha
          omega
        rw [h3]
        by_cases h1 : i0 < k
        · have h4 : i0 < k + 1 := by omega
          simp [h1, h4]
        · have h4 : ¬ i0 < k + 1 := by omega
          simp [h1, h4]
  rw [List.filter_flatten, layout, List.map_map]
  have := key n
  simp only [hi0, if_true] at this
  exact this

theorem rehash_layout {n : Nat} (hn : 0 < n) (log : List (KeyValue TKey TValue)) :
    rehash (layout n log) (List.replicate (n * 2) []) = .ok (layout (n * 2) log) := by
  rw [rehash_eq (by omega : 0 < n * 2) _ _ (by simp)]
  congr 1
  apply List.map_congr_left
  intro j hj
  have hj' : j < n * 2 := List.mem_range.mp hj
  have h1 : (List.replicate (n * 2) ([] : List (KeyValue TKey TValue))).getD j [] = [] := by
    simp [List.getD_eq_getElem?_getD, List.getElem?_replicate, hj']
  rw [h1, List.nil_append]
  apply flatten_layout_filter n log _ (j % n) (Nat.mod_lt _ hn)
  intro kv hkv
  have h2 : kv.hashcode % (n * 2) = j := by simpa using hkv
  rw [← h2, Nat.mod_mul_right_mod]

theorem layout_set_append {n : Nat} (hn : 0 < n) (log : List (KeyValue TKey TValue))
    (x : KeyValue TKey TValue) :
    (layout n log).set (x.hashcode % n) ((layout n log).getD (x.hashcode % n) [] ++ [x])
      = layout n (log ++ [x]) := by
  have hx : x.hashcode % n < n := Nat.mod_lt _ hn
  apply List.ext_getElem?
  intro j
  rw [List.getElem?_set]
  by_cases hj : j < n
  · rw [layout_getElem? _ hj, layout_length]
    by_cases hji : x.hashcode % n = j
    · subst hji
      simp [List.getD_eq_getElem?_getD, layout_getElem? _ hx, hx, List.filter_append]
    · simp [hji, layout_getElem? _ hj, List.filter_append]
  · have h1 : (layout n log).length ≤ j := by rw [layout_length]; omega
    have h2 : (layout n (log ++ [x])).length ≤ j := by rw [layout_length]; omega
    have h3 : x.hashcode % n ≠ j := by omega
    simp [h3, List.getElem?_eq_none h1, List.getElem?_eq_none h2]

theorem chained_new (loadFactor : ℚ) (hashFunction : TKey → Nat) :
    ∃ t : ClosedAddressingHashtable TKey TValue,
      new loadFactor hashFunction = .ok t ∧ t.Holds hashFunction [] := by
  refine ⟨_, rfl, rfl, rfl, 10, by decide, ?_⟩
  simp [layout]

theorem chained_add {t : ClosedAddressingHashtable TKey TValue} {hashFunction : TKey → Nat}
    {adds : List (TKey × TValue)} (ht : t.Holds hashFunction adds) (key : TKey)
    (value : TValue) :
    ∃ t', t.add key value = .ok t' ∧ t'.Holds hashFunction (adds ++ [(key, value)]) ∧
      t'._requestedLoadFactor = t._requestedLoadFactor ∧
      t'._elements.length =
        (if float32Div (t._currentCount + 1) t._elements.length > t._requestedLoadFactor
          then t._elements.length * 2 else t._elements.length) := by
  obtain ⟨hh, hc, n, hn, he⟩ := ht
  have hb := bucketOf_eq hn (layout n (adds.map (entryOf hashFunction))) (layout_length _ _)
    (hashFunction key)
  have hs := layout_set_append hn (adds.map (entryOf hashFunction))
    (entryOf hashFunction (key, value))
  simp only [entryOf] at hs
  unfold add
  simp only [he, hh, hb]
  rw [hs]
  unfold resizeIfRequired
  simp only [loadFactor, layout_length]
  by_cases hcond : float32Div (t._currentCount + 1) n > t._requestedLoadFactor
  · rw [if_pos hcond, if_pos hcond, rehash_layout hn]
    refine ⟨_, rfl, ⟨rfl, by simp [hc], n * 2, by omega, ?_⟩, rfl, layout_length _ _⟩
    simp [entryOf]
  · rw [if_neg hcond, if_neg hcond]
    refine ⟨_, rfl, ⟨rfl, by simp [hc], n, hn, ?_⟩, rfl, layout_length _ _⟩
    simp [entryOf]

theorem chained_addAll (hashFunction : TKey → Nat) (more : List (TKey × TValue)) :
    ∀ (t : ClosedAddressingHashtable TKey TValue) (adds : List (TKey × TValue)),
      t.Holds hashFunction adds →
      ∃ t', t.addAll more = .ok t' ∧ t'.Holds hashFunction (adds ++ more) := by
  induction more with
  | nil =>
    intro t adds ht
    exact ⟨t, rfl, by simpa using ht⟩
  | cons p rest ih =>
    intro t adds ht
    obtain ⟨key, value⟩ := p
    obtain ⟨t1, h1, ht1, _, _⟩ := chained_add ht key value
    obtain ⟨t2, h2, ht2⟩ := ih t1 _ ht1
    refine ⟨t2, ?_, by simpa using ht2⟩
    simp [addAll, h1, h2]

theorem chained_build (loadFactor : ℚ) (hashFunction : TKey → Nat)
    (adds : List (TKey × TValue)) :
    ∃ t : ClosedAddressingHashtable TKey TValue,
      build loadFactor hashFunction adds = .ok t ∧ t.Holds hashFunction adds := by
  obtain ⟨t0, h0, ht0⟩ := @chained_new TKey TValue loadFactor hashFunction
  obtain ⟨t, h, ht⟩ := chained_addAll hashFunction adds t0 [] ht0
  exact ⟨t, by simp [build, h0, h], by simpa using ht⟩

theorem find?_bucket {n : Nat} (log : List (KeyValue TKey TValue)) (h : Nat) :
    (log.filter (fun kv => kv.hashcode % n = h % n)).find? (fun kv => kv.hashcode = h)
      = log.find? (fun kv => kv.hashcode = h) := by
  induction log with
  | nil => rfl
  | cons x rest ih =>
    by_cases hx : x.hashcode = h
    · simp [List.filter_cons, hx]
    · by_cases hx2 : x.hashcode % n = h % n
      · simp [List.filter_cons, hx2, hx, List.find?_cons, ih]
      · simp [List.filter_cons, hx2, hx, List.find?_cons, ih]

theorem chained_get {t : ClosedAddressingHashtable TKey TValue} {hashFunction : TKey → Nat}
    {adds : List (TKey × TValue)} (ht : t.Holds hashFunction adds) (key : TKey) :
    t.get key = match earliestAdd hashFunction adds (hashFunction key) with
      | some v => .ok v
      | none => .error .NotFoundException := by
  obtain ⟨hh, _, n, hn, he⟩ := ht
  have hb := bucketOf_eq hn (layout n (adds.map (entryOf hashFunction))) (layout_length _ _)
    (hashFunction key)
  unfold get
  simp only [he, hh, hb, List.getD_eq_getElem?_getD, layout_getElem? _ (Nat.mod_lt _ hn),
    Option.getD_some, find?_bucket, find?_entryOf, earliestAdd]
  cases adds.find? (fun p => decide (hashFunction p.1 = hashFunction key)) <;> rfl

theorem chained_exists {t : ClosedAddressingHashtable TKey TValue} {hashFunction : TKey → Nat}
    {adds : List (TKey × TValue)} (ht : t.Holds hashFunction adds) (key : TKey) :
    t.exists key = .ok (earliestAdd hashFunction adds (hashFunction key)).isSome := by
  obtain ⟨hh, _, n, hn, he⟩ := ht
  have hb := bucketOf_eq hn (layout n (adds.map (entryOf hashFunction))) (layout_length _ _)
    (hashFunction key)
  unfold ClosedAddressingHashtable.exists
  simp only [he, hh, hb, List.getD_eq_getElem?_getD, layout_getElem? _ (Nat.mod_lt _ hn),
    Option.getD_some, find?_bucket, find?_entryOf, earliestAdd]
  cases adds.find? (fun p => decide (hashFunction p.1 = hashFunction key)) <;> rfl

end ClosedAddressingHashtable

/-! ## Lemmas: the linear probe -/

namespace OpenAddressingHashtable

variable {TKey TValue : Type}

theorem wrap_iff {n s off : Nat} (hs : s < n) (hoff : off < n) :
    (s + off + 1) % n = s ↔ off + 1 = n := by
  constructor
  · intro h
    by_contra hne
    by_cases hlt : s + off + 1 < n
    · rw [Nat.mod_eq_of_lt hlt] at h
      omega
    · rw [Nat.mod_eq_sub_mod (by omega), Nat.mod_eq_of_lt (by omega)] at h
      omega
  · intro h
    have : s + off + 1 = s + n := by omega
    rw [this, Nat.add_mod_right, Nat.mod_eq_of_lt hs]

theorem offset_of_index {n s i : Nat} (hs : s < n) (hi : i < n) :
    ∃ d, d < n ∧ (s + d) % n = i := by
  by_cases h : s ≤ i
  · exact ⟨i - s, by omega, by rw [Nat.add_sub_cancel' h, Nat.mod_eq_of_lt hi]⟩
  · refine ⟨i + n - s, by omega, ?_⟩
    have : s + (i + n - s) = i + n := by omega
    rw [this, Nat.add_mod_right, Nat.mod_eq_of_lt hi]

theorem not_passes_of_stops {arr : List (KeyValue TKey TValue)} {h i : Nat}
    (hs : Stops arr h i) : ¬ Passes arr h i := by
  rintro ⟨kv, hkv, h1, h2⟩
  obtain ⟨kv', hkv', h3⟩ := hs
  rw [hkv] at hkv'
  cases hkv'
  rcases h3 with h3 | h3
  · exact h1 h3
  · exact h2 h3

theorem getKeyValueLoop_spec (arr : List (KeyValue TKey TValue)) (h s : Nat)
    (hs : s < arr.length) :
    ∀ budget off, off + budget = arr.length → off < arr.length →
      ∃ d, getKeyValueLoop arr h s budget off = .ok d ∧ off ≤ d ∧ d < arr.length ∧
        (∀ j, off ≤ j → j < d → Passes arr h ((s + j) % arr.length)) ∧
        (d + 1 = arr.length ∨ Stops arr h ((s + d) % arr.length)) := by
  intro budget
  induction budget with
  | zero => intro off h1 h2; omega
  | succ budget ih =>
    intro off h1 h2
    rw [getKeyValueLoop]
    by_cases hw : (s + off + 1) % arr.length = s
    · rw [if_pos hw]
      exact ⟨off, rfl, le_refl _, h2, fun j hj1 hj2 => by omega,
        Or.inl ((wrap_iff hs h2).mp hw)⟩
    · rw [if_neg hw]
      have hoff : off + 1 < arr.length := by
        have := mt (wrap_iff hs h2).mpr hw
        omega
      have hidx : (s + off) % arr.length < arr.length := Nat.mod_lt _ (by omega)
      have hget : arr[(s + off) % arr.length]? = some arr[(s + off) % arr.length] :=
        List.getElem?_eq_getElem hidx
      simp only [vectorAt, hget]
      by_cases hp : arr[(s + off) % arr.length].hashcode ≠ h ∧
          arr[(s + off) % arr.length].hashcode ≠ 0
      · rw [if_pos hp]
        obtain ⟨d, hd, hle, hlt, hpass, hstop⟩ := ih (off + 1) (by omega) hoff
        refine ⟨d, hd, by omega, hlt, ?_, hstop⟩
        intro j hj1 hj2
        by_cases hj : j = off
        · subst hj
          exact ⟨_, hget, hp.1, hp.2⟩
        · exact hpass j (by omega) hj2
      · rw [if_neg hp]
        refine ⟨off, rfl, le_refl _, h2, fun j hj1 hj2 => by omega, Or.inr ⟨_, hget, ?_⟩⟩
        by_cases h0 : arr[(s + off) % arr.length].hashcode = h
        · exact Or.inl h0
        · right
          by_contra h3
          exact hp ⟨h0, h3⟩

theorem getKeyValue_spec (arr : List (KeyValue TKey TValue)) (key : TKey) (h : Nat)
    (hpos : 0 < arr.length) :
    ∃ d, getKeyValue arr key h = .ok ((h % arr.length + d) % arr.length) ∧ d < arr.length ∧
      (∀ j, j < d → Passes arr h ((h % arr.length + j) % arr.length)) ∧
      (d + 1 = arr.length ∨ Stops arr h ((h % arr.length + d) % arr.length)) := by
  obtain ⟨d, hd, _, hlt, hpass, hstop⟩ :=
    getKeyValueLoop_spec arr h (h % arr.length) (Nat.mod_lt _ hpos) arr.length 0 (by omega) hpos
  refine ⟨d, ?_, hlt, fun j hj => hpass j (Nat.zero_le _) hj, hstop⟩
  have hne : arr.length ≠ 0 := by omega
  have hidx : (h % arr.length + d) % arr.length < arr.length := Nat.mod_lt _ hpos
  unfold getKeyValue
  rw [if_neg hne]
  simp only [hd, vectorAt, List.getElem?_eq_getElem hidx]

/-- The probe returns a slot that the probe path reaches. -/
theorem getKeyValue_path (arr : List (KeyValue TKey TValue)) (key : TKey) (h : Nat)
    (hpos : 0 < arr.length) :
    ∃ i, getKeyValue arr key h = .ok i ∧ i < arr.length ∧ Path arr h i := by
  obtain ⟨d, hd, hlt, hpass, _⟩ := getKeyValue_spec arr key h hpos
  exact ⟨_, hd, Nat.mod_lt _ hpos, d, hlt, rfl, hpass⟩

/-- When some slot is empty, the probe returns a slot that is empty or holds the hash. -/
theorem getKeyValue_stops (arr : List (KeyValue TKey TValue)) (key : TKey) (h : Nat)
    (hempty : ∃ (i : Nat) (kv : KeyValue TKey TValue), arr[i]? = some kv ∧ kv.hashcode = 0) :
    ∃ i, getKeyValue arr key h = .ok i ∧ Path arr h i ∧ Stops arr h i := by
  obtain ⟨i0, kv0, hkv0, hz⟩ := hempty
  have hi0 : i0 < arr.length := by
    by_contra hc
    rw [List.getElem?_eq_none (by omega)] at hkv0
    cases hkv0
  have hpos : 0 < arr.length := by omega
  obtain ⟨d, hd, hlt, hpass, hstop⟩ := getKeyValue_spec arr key h hpos
  refine ⟨_, hd, ⟨d, hlt, rfl, hpass⟩, ?_⟩
  rcases hstop with hlast | hstop
  · obtain ⟨d0, hd0, hd0i⟩ := offset_of_index (Nat.mod_lt h hpos) hi0
    by_cases hlt0 : d0 < d
    · exfalso
      have := hpass d0 hlt0
      rw [hd0i] at this
      exact not_passes_of_stops ⟨kv0, hkv0, Or.inr hz⟩ this
    · have : d0 = d := by omega
      subst this
      rw [hd0i]
      exact ⟨kv0, hkv0, Or.inr hz⟩
  · exact hstop

/-- The probe returns the slot that its path reaches and that stops it. -/
theorem getKeyValue_unique (arr : List (KeyValue TKey TValue)) (key : TKey) (h i : Nat)
    (hpath : Path arr h i) (hstop : Stops arr h i) : getKeyValue arr key h = .ok i := by
  obtain ⟨d', hd', hi, hpass'⟩ := hpath
  have hpos : 0 < arr.length := by omega
  obtain ⟨d, hd, hlt, hpass, hstop2⟩ := getKeyValue_spec arr key h hpos
  have : d = d' := by
    rcases Nat.lt_trichotomy d d' with hlt1 | heq | hgt
    · exfalso
      have hp := hpass' d hlt1
      rcases hstop2 with hlast | hs
      · omega
      · exact not_passes_of_stops hs hp
    · exact heq
    · exfalso
      have hp := hpass d' hgt
      rw [hi] at hp
      exact not_passes_of_stops hstop hp
  subst this
  rw [hd, hi]

theorem exists_empty {arr : List (KeyValue TKey TValue)} (h : occupied arr < arr.length) :
    ∃ (i : Nat) (kv : KeyValue TKey TValue), arr[i]? = some kv ∧ kv.hashcode = 0 := by
  by_contra hc
  have hall : ∀ a ∈ arr, decide (a.hashcode ≠ 0) = true := by
    intro a ha
    obtain ⟨i, hi⟩ := List.mem_iff_getElem?.mp ha
    by_contra hz
    simp at hz
    exact hc ⟨i, a, hi, hz⟩
  have := List.countP_eq_length.mpr hall
  unfold occupied at h
  omega

theorem occupied_le_length (arr : List (KeyValue TKey TValue)) : occupied arr ≤ arr.length :=
  List.countP_le_length _

theorem occupied_append (l1 l2 : List (KeyValue TKey TValue)) :
    occupied (l1 ++ l2) = occupied l1 + occupied l2 := by
  simp [occupied, List.countP_append]

theorem passes_set {arr : List (KeyValue TKey TValue)} {h x p : Nat}
    {kv0 new : KeyValue TKey TValue} (hp : arr[p]? = some kv0) (hz : kv0.hashcode = 0)
    (hx : Passes arr h x) : Passes (arr.set p new) h x := by
  obtain ⟨kv, hkv, h1, h2⟩ := hx
  have hne : p ≠ x := by
    rintro rfl
    rw [hp] at hkv
    cases hkv
    exact h2 hz
  exact ⟨kv, by rw [List.getElem?_set_ne hne]; exact hkv, h1, h2⟩

theorem path_set {arr : List (KeyValue TKey TValue)} {h i p : Nat}
    {kv0 new : KeyValue TKey TValue} (hp : arr[p]? = some kv0) (hz : kv0.hashcode = 0)
    (hpath : Path arr h i) : Path (arr.set p new) h i := by
  obtain ⟨d, hd, hi, hpass⟩ := hpath
  refine ⟨d, by simpa using hd, by simpa using hi, ?_⟩
  intro j hj
  rw [List.length_set]
  exact passes_set hp hz (hpass j hj)

theorem find?_append_singleton_of_none {log : List (KeyValue TKey TValue)}
    {e : KeyValue TKey TValue} {h : Nat} (he : e.hashcode = h)
    (hnone : ∀ x ∈ log, x.hashcode ≠ h) :
    (log ++ [e]).find? (fun x => x.hashcode = h) = some e := by
  rw [List.find?_append]
  have : log.find? (fun x => decide (x.hashcode = h)) = none := by
    rw [List.find?_eq_none]
    intro x hx
    simpa using hnone x hx
  simp [this, he]

theorem find?_append_of_some {log : List (KeyValue TKey TValue)}
    (e : KeyValue TKey TValue) {h : Nat} {v : TValue}
    (hsome : (log.find? (fun x => x.hashcode = h)).map (fun x => x.value) = some v) :
    ((log ++ [e]).find? (fun x => x.hashcode = h)).map (fun x => x.value) = some v := by
  rw [List.find?_append]
  cases hf : log.find? (fun x => decide (x.hashcode = h)) with
  | none => rw [hf] at hsome; cases hsome
  | some y => rw [hf] at hsome; simpa using hsome

/-- One `addToElements` keeps a probing layout and records the new entry. -/
theorem addToElements_probed {arr log : List (KeyValue TKey TValue)} (hP : Probed arr log)
    (hroom : occupied log < arr.length) (key : TKey) (value : TValue) (h : Nat) :
    ∃ arr', addToElements arr key value h = .ok arr' ∧ arr'.length = arr.length ∧
      Probed arr' (log ++ [{ key := key, value := value, hashcode := h }]) := by
  have hempty := exists_empty (lt_of_le_of_lt hP.occupied_le hroom)
  obtain ⟨p, hget, hpath, kv, hkv, hstop⟩ := getKeyValue_stops arr key h hempty
  have hplt : p < arr.length := by
    by_contra hc
    rw [List.getElem?_eq_none (by omega)] at hkv
    cases hkv
  have hadd : addToElements arr key value h =
      if kv.hashcode = 0 then
        .ok (arr.set p { key := key, value := value, hashcode := h })
      else .ok arr := by
    simp only [addToElements, hget, vectorAt, hkv]
  rw [hadd]
  by_cases hz : kv.hashcode = 0
  · rw [if_pos hz]
    refine ⟨_, rfl, List.length_set _ _ _, ?_⟩
    -- no entry of `log` has the hash code `h`, unless `h = 0`
    have hfresh : h ≠ 0 → ∀ x ∈ log, x.hashcode ≠ h := by
      intro hh x hx hxh
      obtain ⟨i, kvi, hkvi, hhc⟩ := hP.present x hx (by omega)
      have hpi := hP.path i kvi hkvi (by omega)
      rw [hhc, hxh] at hpi
      have := getKeyValue_unique arr key h i hpi ⟨kvi, hkvi, Or.inl (by omega)⟩
      rw [hget] at this
      cases this
      rw [hkv] at hkvi
      cases hkvi
      omega
    constructor
    · rw [List.length_set]; exact hP.pos
    · intro i kvi hkvi hnz
      by_cases hip : p = i
      · subst hip
        rw [List.getElem?_set_self hplt] at hkvi
        cases hkvi
        exact path_set hkv hz hpath
      · rw [List.getElem?_set_ne hip] at hkvi
        exact path_set hkv hz (hP.path i kvi hkvi hnz)
    · intro i kvi hkvi hnz
      by_cases hip : p = i
      · subst hip
        rw [List.getElem?_set_self hplt] at hkvi
        cases hkvi
        rw [find?_append_singleton_of_none rfl (hfresh hnz)]
        rfl
      · rw [List.getElem?_set_ne hip] at hkvi
        exact find?_append_of_some _ (hP.value i kvi hkvi hnz)
    · intro e he hnz
      rw [List.mem_append, List.mem_singleton] at he
      rcases he with he | he
      · obtain ⟨i, kvi, hkvi, hhc⟩ := hP.present e he hnz
        have hip : p ≠ i := by
          rintro rfl
          rw [hkv] at hkvi
          cases hkvi
          omega
        exact ⟨i, kvi, by rw [List.getElem?_set_ne hip]; exact hkvi, hhc⟩
      · subst he
        exact ⟨p, _, List.getElem?_set_self hplt, rfl⟩
    · have hcount := List.countP_set (fun kv : KeyValue TKey TValue => decide (kv.hashcode ≠ 0))
        arr p { key := key, value := value, hashcode := h } hplt
      have hpz : arr[p].hashcode = 0 := by
        have := List.getElem?_eq_getElem hplt
        rw [hkv] at this
        cases this
        exact hz
      have hle := hP.occupied_le
      have h1 : (if decide (arr[p].hashcode ≠ 0) = true then 1 else 0) = 0 := by simp [hpz]
      have h2 : occupied [({ key := key, value := value, hashcode := h } : KeyValue TKey TValue)]
          = (if decide (({ key := key, value := value, hashcode := h } :
              KeyValue TKey TValue).hashcode ≠ 0) = true then 1 else 0) := by
        simp [occupied, List.countP_cons]
      rw [occupied_append, h2]
      unfold occupied at hle ⊢
      rw [hcount, h1]
      omega
  · rw [if_neg hz]
    have hkh : kv.hashcode = h := by
      rcases hstop with h1 | h1
      · exact h1
      · exact absurd h1 hz
    refine ⟨_, rfl, rfl, ?_⟩
    constructor
    · exact hP.pos
    · exact hP.path
    · intro i kvi hkvi hnz
      exact find?_append_of_some _ (hP.value i kvi hkvi hnz)
    · intro e he hnz
      rw [List.mem_append, List.mem_singleton] at he
      rcases he with he | he
      · exact hP.present e he hnz
      · subst he
        exact ⟨p, kv, hkv, hkh⟩
    · rw [occupied_append]
      exact le_trans hP.occupied_le (Nat.le_add_right _ _)

theorem probed_replicate [Inhabited TKey] [Inhabited TValue] {m : Nat} (hm : 0 < m) :
    Probed (List.replicate m (KeyValue.zero : KeyValue TKey TValue)) [] := by
  have hz : ∀ (i : Nat) (kv : KeyValue TKey TValue),
      (List.replicate m (KeyValue.zero : KeyValue TKey TValue))[i]? = some kv →
        kv.hashcode = 0 := by
    intro i kv hkv
    rw [List.getElem?_replicate] at hkv
    split at hkv
    · cases hkv; rfl
    · cases hkv
  constructor
  · simpa using hm
  · intro i kv hkv hnz
    exact absurd (hz i kv hkv) hnz
  · intro i kv hkv hnz
    exact absurd (hz i kv hkv) hnz
  · intro e he
    cases he
  · have : occupied (List.replicate m (KeyValue.zero : KeyValue TKey TValue)) = 0 := by
      unfold occupied
      rw [List.countP_eq_zero]
      intro a ha
      rw [List.mem_replicate] at ha
      simp [ha.2, KeyValue.zero]
    omega

/-- The rehash loop keeps a probing layout and records the re-added slots. -/
theorem rehash_probed :
    ∀ (es arr log : List (KeyValue TKey TValue)), Probed arr log →
      occupied log + occupied es < arr.length →
      ∃ arr', rehash es arr = .ok arr' ∧ arr'.length = arr.length ∧
        Probed arr' (log ++ es) := by
  intro es
  induction es with
  | nil =>
    intro arr log hP _
    exact ⟨arr, rfl, rfl, by simpa using hP⟩
  | cons x rest ih =>
    intro arr log hP hroom
    have hsplit : occupied (x :: rest) = occupied [x] + occupied rest :=
      occupied_append [x] rest
    obtain ⟨arr1, h1, hlen1, hP1⟩ :=
      addToElements_probed hP (by omega) x.key x.value x.hashcode
    have hx : ({ key := x.key, value := x.value, hashcode := x.hashcode } :
        KeyValue TKey TValue) = x := rfl
    rw [hx] at hP1
    obtain ⟨arr2, h2, hlen2, hP2⟩ := ih arr1 (log ++ [x]) hP1
      (by rw [occupied_append, hlen1]; omega)
    refine ⟨arr2, ?_, by omega, by simpa using hP2⟩
    rw [rehash, h1]
    exact h2

/-- A layout of the slots of `old`, themselves a layout of `log`, is a layout of `log`. -/
theorem probed_transfer {old new log : List (KeyValue TKey TValue)}
    (hold : Probed old log) (hnew : Probed new old) : Probed new log := by
  constructor
  · exact hnew.pos
  · exact hnew.path
  · intro i kv hkv hnz
    have h1 := hnew.value i kv hkv hnz
    cases hf : old.find? (fun e => decide (e.hashcode = kv.hashcode)) with
    | none => rw [hf] at h1; cases h1
    | some e0 =>
      rw [hf] at h1
      have hv : e0.value = kv.value := by simpa using h1
      have hmem : e0 ∈ old := List.mem_of_find?_eq_some hf
      have hhc : e0.hashcode = kv.hashcode := by
        have := List.find?_some hf
        simpa using this
      obtain ⟨j, hj⟩ := List.mem_iff_getElem?.mp hmem
      have h2 := hold.value j e0 hj (by omega)
      rw [hhc, hv] at h2
      exact h2
  · intro e he hnz
    obtain ⟨j, kvj, hj, hhc⟩ := hold.present e he hnz
    have hmem : kvj ∈ old := List.mem_iff_getElem?.mpr ⟨j, hj⟩
    obtain ⟨i, kvi, hi, hhc2⟩ := hnew.present kvj hmem (by omega)
    exact ⟨i, kvi, hi, by omega⟩
  · exact le_trans hnew.occupied_le hold.occupied_le

theorem probing_new [Inhabited TKey] [Inhabited TValue] {loadFactor : ℚ}
    (hlf : loadFactor < 1) (hashFunction : TKey → Nat) :
    ∃ t : OpenAddressingHashtable TKey TValue,
      new loadFactor hashFunction = .ok t ∧ t.Holds hashFunction [] ∧
      t._requestedLoadFactor = loadFactor := by
  have h : ¬ loadFactor ≥ 1 := not_le.mpr hlf
  refine ⟨_, by rw [new, if_neg h], ⟨rfl, rfl, hlf, by simp, ?_⟩, rfl⟩
  exact probed_replicate (by decide)

theorem probing_add [Inhabited TKey] [Inhabited TValue]
    {t : OpenAddressingHashtable TKey TValue} {hashFunction : TKey → Nat}
    {adds : List (TKey × TValue)} (ht : t.Holds hashFunction adds) (key : TKey)
    (value : TValue) :
    ∃ t', t.add key value = .ok t' ∧ t'.Holds hashFunction (adds ++ [(key, value)]) ∧
      t'._requestedLoadFactor = t._requestedLoadFactor ∧
      t'._elements.length =
        (if float32Div (t._currentCount + 1) t._elements.length > t._requestedLoadFactor
          then t._elements.length * 2 else t._elements.length) := by
  obtain ⟨hh, hc, hlf, hroom, hP⟩ := ht
  have hocc : occupied (adds.map (entryOf hashFunction)) < t._elements.length := by
    have := occupied_le_length (adds.map (entryOf hashFunction))
    rw [List.length_map] at this
    omega
  obtain ⟨arr1, h1, hlen1, hP1⟩ := addToElements_probed hP hocc key value (hashFunction key)
  have hlog : adds.map (entryOf hashFunction) ++
      [{ key := key, value := value, hashcode := hashFunction key }]
        = (adds ++ [(key, value)]).map (entryOf hashFunction) := by
    simp [entryOf]
  rw [hlog] at hP1
  unfold add
  simp only [hh, h1]
  unfold resizeIfRequired
  simp only [loadFactor, hlen1]
  by_cases hcond : float32Div (t._currentCount + 1) t._elements.length
      > t._requestedLoadFactor
  · rw [if_pos hcond, if_pos hcond]
    obtain ⟨arr2, h2, hlen2, hP2⟩ := rehash_probed arr1
      (List.replicate (t._elements.length * 2) KeyValue.zero) [] (probed_replicate (by omega))
      (by
        have := occupied_le_length arr1
        have h0 : occupied ([] : List (KeyValue TKey TValue)) = 0 := rfl
        rw [h0, List.length_replicate]
        omega)
    rw [h2]
    refine ⟨_, rfl, ⟨rfl, by simp [hc], hlf, ?_, ?_⟩, rfl, ?_⟩
    · simp only [hlen2, List.length_replicate]
      omega
    · exact probed_transfer hP1 (by simpa using hP2)
    · simp only [hlen2, List.length_replicate]
  · rw [if_neg hcond, if_neg hcond]
    refine ⟨_, rfl, ⟨rfl, by simp [hc], hlf, ?_, hP1⟩, rfl, hlen1⟩
    show t._currentCount + 1 < arr1.length
    by_contra hge
    have heq : t._currentCount + 1 = t._elements.length := by omega
    apply hcond
    rw [heq, float32Div_self (by omega)]
    exact hlf

theorem probing_addAll [Inhabited TKey] [Inhabited TValue] (hashFunction : TKey → Nat)
    (more : List (TKey × TValue)) :
    ∀ (t : OpenAddressingHashtable TKey TValue) (adds : List (TKey × TValue)),
      t.Holds hashFunction adds →
      ∃ t', t.addAll more = .ok t' ∧ t'.Holds hashFunction (adds ++ more) ∧
        t'._requestedLoadFactor = t._requestedLoadFactor := by
  induction more with
  | nil =>
    intro t adds ht
    exact ⟨t, rfl, by simpa using ht, rfl⟩
  | cons p rest ih =>
    intro t adds ht
    obtain ⟨key, value⟩ := p
    obtain ⟨t1, h1, ht1, hl1, _⟩ := probing_add ht key value
    obtain ⟨t2, h2, ht2, hl2⟩ := ih t1 _ ht1
    refine ⟨t2, ?_, by simpa using ht2, by rw [hl2, hl1]⟩
    simp [addAll, h1, h2]

theorem probing_build [Inhabited TKey] [Inhabited TValue] {loadFactor : ℚ}
    (hlf : loadFactor < 1) (hashFunction : TKey → Nat) (adds : List (TKey × TValue)) :
    ∃ t : OpenAddressingHashtable TKey TValue,
      build loadFactor hashFunction adds = .ok t ∧ t.Holds hashFunction adds ∧
      t._requestedLoadFactor = loadFactor := by
  obtain ⟨t0, h0, ht0, hl0⟩ := @probing_new TKey TValue _ _ loadFactor hlf hashFunction
  obtain ⟨t, h, ht, hl⟩ := probing_addAll hashFunction adds t0 [] ht0
  exact ⟨t, by simp [build, h0, h], by simpa using ht, by rw [hl, hl0]⟩

/-- In a table that `Holds`, the probe returns a slot that is empty or holds the hash. -/
theorem probing_probe {t : OpenAddressingHashtable TKey TValue} {hashFunction : TKey → Nat}
    {adds : List (TKey × TValue)} (ht : t.Holds hashFunction adds) (key : TKey) (h : Nat) :
    ∃ (p : Nat) (kv : KeyValue TKey TValue), getKeyValue t._elements key h = .ok p ∧
      t._elements[p]? = some kv ∧ (kv.hashcode = h ∨ kv.hashcode = 0) := by
  obtain ⟨_, hc, _, hroom, hP⟩ := ht
  have hocc : occupied t._elements < t._elements.length := by
    have h1 := occupied_le_length (adds.map (entryOf hashFunction))
    have h2 := hP.occupied_le
    rw [List.length_map] at h1
    omega
  obtain ⟨p, hget, _, kv, hkv, hstop⟩ := getKeyValue_stops t._elements key h (exists_empty hocc)
  exact ⟨p, kv, hget, hkv, hstop⟩

/-- A probe for a non-zero hash code that ends on another hash code: the hash code is new. -/
theorem probed_miss {arr log : List (KeyValue TKey TValue)} (hP : Probed arr log)
    {key : TKey} {h p : Nat} {kv : KeyValue TKey TValue}
    (hget : getKeyValue arr key h = .ok p) (hkv : arr[p]? = some kv)
    (hne : kv.hashcode ≠ h) (hh : h ≠ 0) : ∀ x ∈ log, x.hashcode ≠ h := by
  intro x hx hxh
  obtain ⟨i, kvi, hkvi, hhc⟩ := hP.present x hx (by omega)
  have hpi := hP.path i kvi hkvi (by omega)
  rw [hhc, hxh] at hpi
  have := getKeyValue_unique arr key h i hpi ⟨kvi, hkvi, Or.inl (by omega)⟩
  rw [hget] at this
  cases this
  rw [hkv] at hkvi
  cases hkvi
  omega

theorem probing_get {t : OpenAddressingHashtable TKey TValue} {hashFunction : TKey → Nat}
    {adds : List (TKey × TValue)} (ht : t.Holds hashFunction adds) (key : TKey)
    (hk : hashFunction key ≠ 0) :
    t.get key = match earliestAdd hashFunction adds (hashFunction key) with
      | some v => .ok v
      | none => .error .NotFoundException := by
  obtain ⟨p, kv, hget, hkv, hstop⟩ := probing_probe ht key (hashFunction key)
  obtain ⟨hh, _, _, _, hP⟩ := ht
  unfold get
  simp only [hh, hget, vectorAt, hkv]
  by_cases hhit : kv.hashcode = hashFunction key
  · rw [if_pos hhit]
    have hv := hP.value p kv hkv (by omega)
    rw [hhit, ← earliestAdd_eq_find?_entryOf] at hv
    rw [hv]
  · rw [if_neg hhit]
    have hmiss := probed_miss hP hget hkv hhit hk
    have hnone : earliestAdd hashFunction adds (hashFunction key) = none := by
      rw [earliestAdd_eq_none_iff]
      intro q hq hqh
      exact hmiss (entryOf hashFunction q) (List.mem_map_of_mem _ hq) hqh
    rw [hnone]

theorem probing_exists_hit {t : OpenAddressingHashtable TKey TValue}
    {hashFunction : TKey → Nat} {adds : List (TKey × TValue)} (ht : t.Holds hashFunction adds)
    (key : TKey) (hadded : hashFunction key = 0 ∨ ∃ q ∈ adds, hashFunction q.1 = hashFunction key) :
    t.exists key = .ok true := by
  obtain ⟨p, kv, hget, hkv, hstop⟩ := probing_probe ht key (hashFunction key)
  obtain ⟨hh, _, _, _, hP⟩ := ht
  unfold OpenAddressingHashtable.exists
  simp only [hh, hget, vectorAt, hkv]
  by_cases hhit : kv.hashcode = hashFunction key
  · rw [if_pos hhit]
  · exfalso
    have hz : kv.hashcode = 0 := by
      rcases hstop with h1 | h1
      · exact absurd h1 hhit
      · exact h1
    rcases hadded with h0 | ⟨q, hq, hqh⟩
    · omega
    · have hk : hashFunction key ≠ 0 := by omega
      exact probed_miss hP hget hkv hhit hk (entryOf hashFunction q)
        (List.mem_map_of_mem _ hq) hqh

theorem probing_exists_miss {t : OpenAddressingHashtable TKey TValue}
    {hashFunction : TKey → Nat} {adds : List (TKey × TValue)} (ht : t.Holds hashFunction adds)
    (key : TKey) (hk : hashFunction key ≠ 0)
    (hnew : ∀ q ∈ adds, hashFunction q.1 ≠ hashFunction key) :
    t.exists key = .error (.thrownBool false) := by
  obtain ⟨p, kv, hget, hkv, hstop⟩ := probing_probe ht key (hashFunction key)
  obtain ⟨hh, _, _, _, hP⟩ := ht
  unfold OpenAddressingHashtable.exists
  simp only [hh, hget, vectorAt, hkv]
  by_cases hhit : kv.hashcode = hashFunction key
  · exfalso
    have hv := hP.value p kv hkv (by omega)
    rw [hhit, ← earliestAdd_eq_find?_entryOf,
      (earliestAdd_eq_none_iff hashFunction adds (hashFunction key)).mpr hnew] at hv
    cases hv
  · rw [if_neg hhit]

/-- One `add` on a table whose load factor is within a binary32 threshold of at least 1/20
(or that is freshly constructed) leaves the load factor within the threshold. -/
theorem loadFactor_le_add [Inhabited TKey] [Inhabited TValue]
    {t : OpenAddressingHashtable TKey TValue} {hashFunction : TKey → Nat}
    {adds : List (TKey × TValue)} (ht : t.Holds hashFunction adds)
    (hbin : roundBinary32 t._requestedLoadFactor = t._requestedLoadFactor)
    (hlo : 1 / 20 ≤ t._requestedLoadFactor)
    (hlf : (1 ≤ t._currentCount ∧ t.loadFactor ≤ t._requestedLoadFactor) ∨
      (t._currentCount = 0 ∧ t._elements.length = 10))
    (key : TKey) (value : TValue) :
    ∃ t', t.add key value = .ok t' ∧ t'.Holds hashFunction (adds ++ [(key, value)]) ∧
      t'._requestedLoadFactor = t._requestedLoadFactor ∧
      1 ≤ t'._currentCount ∧ t'.loadFactor ≤ t'._requestedLoadFactor := by
  obtain ⟨t', hadd, ht', hthr, hlen⟩ := probing_add ht key value
  have hc : t._currentCount = adds.length := ht.2.1
  have hc' : t'._currentCount = t._currentCount + 1 := by
    rw [ht'.2.1, hc, List.length_append]
    rfl
  have hn : 0 < t._elements.length := by
    have := ht.2.2.2.1
    omega
  refine ⟨t', hadd, ht', hthr, by omega, ?_⟩
  rw [hthr]
  unfold loadFactor
  rw [hc', hlen]
  by_cases hcond : float32Div (t._currentCount + 1) t._elements.length
      > t._requestedLoadFactor
  · rw [if_pos hcond, Nat.mul_comm]
    rcases hlf with ⟨h1, h2⟩ | ⟨h1, h2⟩
    · exact le_trans (float32Div_succ_double h1 hn) h2
    · rw [h1, h2]
      have h20 : float32Div (0 + 1) (2 * 10) = roundRatio 1 20 := float32Div_one_twenty
      rw [h20]
      exact roundRatio_le_of_le (by decide) hbin (by push_cast; exact hlo)
  · rw [if_neg hcond]
    exact not_lt.mp hcond

theorem loadFactor_le_addAll [Inhabited TKey] [Inhabited TValue] (hashFunction : TKey → Nat)
    (more : List (TKey × TValue)) :
    ∀ (t : OpenAddressingHashtable TKey TValue) (adds : List (TKey × TValue)),
      t.Holds hashFunction adds →
      roundBinary32 t._requestedLoadFactor = t._requestedLoadFactor →
      1 / 20 ≤ t._requestedLoadFactor →
      ((1 ≤ t._currentCount ∧ t.loadFactor ≤ t._requestedLoadFactor) ∨
        (t._currentCount = 0 ∧ t._elements.length = 10)) →
      ∃ t', t.addAll more = .ok t' ∧
        t'._requestedLoadFactor = t._requestedLoadFactor ∧
        ((more ≠ [] ∨ (1 ≤ t._currentCount ∧ t.loadFactor ≤ t._requestedLoadFactor)) →
          t'.loadFactor ≤ t'._requestedLoadFactor) := by
  induction more with
  | nil =>
    intro t adds _ _ _ _
    refine ⟨t, rfl, rfl, ?_⟩
    rintro (h | h)
    · exact absurd rfl h
    · exact h.2
  | cons p rest ih =>
    intro t adds ht hbin hlo hlf
    obtain ⟨key, value⟩ := p
    obtain ⟨t1, h1, ht1, hthr1, hc1, hlf1⟩ := loadFactor_le_add ht hbin hlo hlf key value
    obtain ⟨t2, h2, hthr2, hlf2⟩ := ih t1 _ ht1 (by rw [hthr1]; exact hbin)
      (by rw [hthr1]; exact hlo) (Or.inl ⟨hc1, hlf1⟩)
    refine ⟨t2, by simp [addAll, h1, h2], by rw [hthr2, hthr1], ?_⟩
    intro _
    exact hlf2 (Or.inr ⟨hc1, hlf1⟩)

end OpenAddressingHashtable

/-! ## Lemmas: totality of the probe and of the operations -/

namespace OpenAddressingHashtable

variable {TKey TValue : Type}

/-- The probe on any array of positive size: the loop ends within its budget after `d`
advances, `d` below the size, on the first slot, in cyclic order from the home slot, that is
empty or holds the hash code; without such a slot it makes all `size - 1` advances. -/
theorem getKeyValue_first_stop (arr : List (KeyValue TKey TValue)) (key : TKey) (h : Nat)
    (hpos : 0 < arr.length) :
    ∃ d, d < arr.length ∧
      getKeyValueLoop arr h (h % arr.length) arr.length 0 = .ok d ∧
      getKeyValue arr key h = .ok ((h % arr.length + d) % arr.length) ∧
      (∀ j, j < d → ¬ Stops arr h ((h % arr.length + j) % arr.length)) ∧
      ((∃ i, Stops arr h i) → Stops arr h ((h % arr.length + d) % arr.length)) ∧
      ((¬ ∃ i, Stops arr h i) → d + 1 = arr.length) := by
  obtain ⟨d, hd, _, hlt, hpass, hstop⟩ :=
    getKeyValueLoop_spec arr h (h % arr.length) (Nat.mod_lt _ hpos) arr.length 0 (by omega) hpos
  have hne : arr.length ≠ 0 := by omega
  have hidx : (h % arr.length + d) % arr.length < arr.length := Nat.mod_lt _ hpos
  refine ⟨d, hlt, hd, ?_, ?_, ?_, ?_⟩
  · unfold getKeyValue
    rw [if_neg hne]
    simp only [hd, vectorAt, List.getElem?_eq_getElem hidx]
  · intro j hj hs
    exact not_passes_of_stops hs (hpass j (Nat.zero_le _) hj)
  · rintro ⟨i, kv, hkv, hst⟩
    rcases hstop with hlast | hs
    · have hi : i < arr.length := by
        by_contra hc
        rw [List.getElem?_eq_none (by omega)] at hkv
        cases hkv
      obtain ⟨d0, hd0, hd0i⟩ := offset_of_index (Nat.mod_lt h hpos) hi
      by_cases hlt0 : d0 < d
      · exfalso
        have hp := hpass d0 (Nat.zero_le _) hlt0
        rw [hd0i] at hp
        exact not_passes_of_stops ⟨kv, hkv, hst⟩ hp
      · have : d0 = d := by omega
        subst this
        rw [hd0i]
        exact ⟨kv, hkv, hst⟩
    · exact hs
  · intro hnone
    rcases hstop with hlast | hs
    · exact hlast
    · exact absurd ⟨_, hs⟩ hnone

/-- On a table of positive capacity `get` returns a value or throws NotFoundException. -/
theorem get_total (t : OpenAddressingHashtable TKey TValue) (hpos : 0 < t._elements.length)
    (key : TKey) :
    (∃ v, t.get key = .ok v) ∨ t.get key = .error .NotFoundException := by
  obtain ⟨d, _, _, hget, _⟩ := getKeyValue_first_stop t._elements key (t._hashFunction key) hpos
  have hidx : (t._hashFunction key % t._elements.length + d) % t._elements.length
      < t._elements.length := Nat.mod_lt _ hpos
  unfold get
  simp only [hget, vectorAt, List.getElem?_eq_getElem hidx]
  split
  · exact Or.inl ⟨_, rfl⟩
  · exact Or.inr rfl

/-- On a table of positive capacity `exists` returns true or throws `false`. -/
theorem exists_total (t : OpenAddressingHashtable TKey TValue)
    (hpos : 0 < t._elements.length) (key : TKey) :
    t.exists key = .ok true ∨ t.exists key = .error (.thrownBool false) := by
  obtain ⟨d, _, _, hget, _⟩ := getKeyValue_first_stop t._elements key (t._hashFunction key) hpos
  have hidx : (t._hashFunction key % t._elements.length + d) % t._elements.length
      < t._elements.length := Nat.mod_lt _ hpos
  unfold OpenAddressingHashtable.exists
  simp only [hget, vectorAt, List.getElem?_eq_getElem hidx]
  split
  · exact Or.inl rfl
  · exact Or.inr rfl

theorem addToElements_total (arr : List (KeyValue TKey TValue)) (hpos : 0 < arr.length)
    (key : TKey) (value : TValue) (h : Nat) :
    ∃ arr', addToElements arr key value h = .ok arr' ∧ arr'.length = arr.length := by
  obtain ⟨d, _, _, hget, _⟩ := getKeyValue_first_stop arr key h hpos
  have hidx : (h % arr.length + d) % arr.length < arr.length := Nat.mod_lt _ hpos
  unfold addToElements
  simp only [hget, vectorAt, List.getElem?_eq_getElem hidx]
  split
  · exact ⟨_, rfl, List.length_set _ _ _⟩
  · exact ⟨_, rfl, rfl⟩

theorem rehash_total :
    ∀ (es arr : List (KeyValue TKey TValue)), 0 < arr.length →
      ∃ arr', rehash es arr = .ok arr' ∧ arr'.length = arr.length := by
  intro es
  induction es with
  | nil => intro arr _; exact ⟨arr, rfl, rfl⟩
  | cons x rest ih =>
    intro arr hpos
    obtain ⟨arr1, h1, hlen1⟩ := addToElements_total arr hpos x.key x.value x.hashcode
    obtain ⟨arr2, h2, hlen2⟩ := ih arr1 (by omega)
    refine ⟨arr2, ?_, by omega⟩
    rw [rehash, h1]
    exact h2

/-- On a table of positive capacity `add` returns: the count grows by one and the capacity
doubles exactly when the new load factor exceeds the threshold. -/
theorem add_total [Inhabited TKey] [Inhabited TValue]
    (t : OpenAddressingHashtable TKey TValue) (hpos : 0 < t._elements.length)
    (key : TKey) (value : TValue) :
    ∃ t', t.add key value = .ok t' ∧ t'._currentCount = t._currentCount + 1 ∧
      t'._hashFunction = t._hashFunction ∧
      t'._requestedLoadFactor = t._requestedLoadFactor ∧
      t'._elements.length =
        (if float32Div (t._currentCount + 1) t._elements.length > t._requestedLoadFactor
          then t._elements.length * 2 else t._elements.length) := by
  obtain ⟨arr1, h1, hlen1⟩ :=
    addToElements_total t._elements hpos key value (t._hashFunction key)
  unfold add
  simp only [h1]
  unfold resizeIfRequired
  simp only [loadFactor, hlen1]
  by_cases hcond : float32Div (t._currentCount + 1) t._elements.length
      > t._requestedLoadFactor
  · rw [if_pos hcond, if_pos hcond]
    obtain ⟨arr2, h2, hlen2⟩ := rehash_total arr1
      (List.replicate (t._elements.length * 2) KeyValue.zero)
      (by rw [List.length_replicate]; omega)
    rw [h2]
    exact ⟨_, rfl, rfl, rfl, rfl, by simp only [hlen2, List.length_replicate]⟩
  · rw [if_neg hcond, if_neg hcond]
    exact ⟨_, rfl, rfl, rfl, rfl, hlen1⟩

end OpenAddressingHashtable

/-! ## Lemmas: the capacity -/

theorem capacityAfter_eq_pow (threshold : ℚ) (k : Nat) :
    ∃ r, capacityAfter threshold k = 10 * 2 ^ r := by
  induction k with
  | zero => exact ⟨0, rfl⟩
  | succ k ih =>
    obtain ⟨r, hr⟩ := ih
    rw [capacityAfter]
    split
    · exact ⟨r + 1, by rw [hr, pow_succ]; ring⟩
    · exact ⟨r, hr⟩

theorem capacityAfter_pos (threshold : ℚ) (k : Nat) : 0 < capacityAfter threshold k := by
  obtain ⟨r, hr⟩ := capacityAfter_eq_pow threshold k
  rw [hr]
  positivity

theorem capacityAfter_open_example :
    capacityAfter threshold06 6 = 10 ∧ capacityAfter threshold06 7 = 20 := by
  decide

set_option maxRecDepth 100000 in
theorem capacityAfter_closed_example :
    capacityAfter 3 30 = 10 ∧ capacityAfter 3 31 = 20 := by
  decide

namespace OpenAddressingHashtable

variable {TKey TValue : Type}

theorem probing_capacity_addAll [Inhabited TKey] [Inhabited TValue]
    (hashFunction : TKey → Nat) (more : List (TKey × TValue)) :
    ∀ (t : OpenAddressingHashtable TKey TValue) (adds : List (TKey × TValue)),
      t.Holds hashFunction adds →
      t._elements.length = capacityAfter t._requestedLoadFactor adds.length →
      ∃ t', t.addAll more = .ok t' ∧ t'.Holds hashFunction (adds ++ more) ∧
        t'._requestedLoadFactor = t._requestedLoadFactor ∧
        t'._elements.length = capacityAfter t._requestedLoadFactor (adds ++ more).length := by
  induction more with
  | nil =>
    intro t adds ht hcap
    exact ⟨t, rfl, by simpa using ht, rfl, by simpa using hcap⟩
  | cons p rest ih =>
    intro t adds ht hcap
    obtain ⟨key, value⟩ := p
    obtain ⟨t1, h1, ht1, hl1, hlen1⟩ := probing_add ht key value
    have hc : t._currentCount = adds.length := ht.2.1
    have hcap1 : t1._elements.length
        = capacityAfter t1._requestedLoadFactor (adds ++ [(key, value)]).length := by
      rw [hlen1, hl1, List.length_append, List.length_singleton, capacityAfter, ← hcap, hc]
    obtain ⟨t2, h2, ht2, hl2, hlen2⟩ := ih t1 _ ht1 hcap1
    refine ⟨t2, by simp [addAll, h1, h2], by simpa using ht2, by rw [hl2, hl1], ?_⟩
    rw [hlen2, hl1]
    simp

theorem probing_capacity [Inhabited TKey] [Inhabited TValue] {loadFactor : ℚ}
    (hlf : loadFactor < 1) (hashFunction : TKey → Nat) (adds : List (TKey × TValue)) :
    ∃ t : OpenAddressingHashtable TKey TValue,
      build loadFactor hashFunction adds = .ok t ∧ t.Holds hashFunction adds ∧
      t._requestedLoadFactor = loadFactor ∧
      t._elements.length = capacityAfter loadFactor adds.length := by
  obtain ⟨t0, h0, ht0, hl0⟩ := @probing_new TKey TValue _ _ loadFactor hlf hashFunction
  have hlen0 : t0._elements.length = 10 := by
    rw [new, if_neg (not_le.mpr hlf)] at h0
    cases h0
    simp
  obtain ⟨t, h, ht, hl, hlen⟩ := probing_capacity_addAll hashFunction adds t0 [] ht0
    (by rw [hlen0]; rfl)
  refine ⟨t, by simp [build, h0, h], by simpa using ht, by rw [hl, hl0], ?_⟩
  rw [hlen, hl0]
  simp

end OpenAddressingHashtable

namespace ClosedAddressingHashtable

variable {TKey TValue : Type}

theorem chained_capacity_addAll (hashFunction : TKey → Nat) (more : List (TKey × TValue)) :
    ∀ (t : ClosedAddressingHashtable TKey TValue) (adds : List (TKey × TValue)),
      t.Holds hashFunction adds →
      t._elements.length = capacityAfter t._requestedLoadFactor adds.length →
      ∃ t', t.addAll more = .ok t' ∧ t'.Holds hashFunction (adds ++ more) ∧
        t'._requestedLoadFactor = t._requestedLoadFactor ∧
        t'._elements.length = capacityAfter t._requestedLoadFactor (adds ++ more).length := by
  induction more with
  | nil =>
    intro t adds ht hcap
    exact ⟨t, rfl, by simpa using ht, rfl, by simpa using hcap⟩
  | cons p rest ih =>
    intro t adds ht hcap
    obtain ⟨key, value⟩ := p
    obtain ⟨t1, h1, ht1, hl1, hlen1⟩ := chained_add ht key value
    have hc : t._currentCount = adds.length := ht.2.1
    have hcap1 : t1._elements.length
        = capacityAfter t1._requestedLoadFactor (adds ++ [(key, value)]).length := by
      rw [hlen1, hl1, List.length_append, List.length_singleton, capacityAfter, ← hcap, hc]
    obtain ⟨t2, h2, ht2, hl2, hlen2⟩ := ih t1 _ ht1 hcap1
    refine ⟨t2, by simp [addAll, h1, h2], by simpa using ht2, by rw [hl2, hl1], ?_⟩
    rw [hlen2, hl1]
    simp

theorem chained_capacity (loadFactor : ℚ) (hashFunction : TKey → Nat)
    (adds : List (TKey × TValue)) :
    ∃ t : ClosedAddressingHashtable TKey TValue,
      build loadFactor hashFunction adds = .ok t ∧ t.Holds hashFunction adds ∧
      t._requestedLoadFactor = loadFactor ∧
      t._elements.length = capacityAfter loadFactor adds.length := by
  obtain ⟨t0, h0, ht0⟩ := @chained_new TKey TValue loadFactor hashFunction
  have h0' := h0
  rw [new] at h0'
  cases h0'
  obtain ⟨t, h, ht, hl, hlen⟩ := chained_capacity_addAll hashFunction adds _ [] ht0
    (by simp; rfl)
  refine ⟨t, by unfold build; rw [h0]; exact h, by simpa using ht, hl, ?_⟩
  rw [hlen]
  simp

end ClosedAddressingHashtable

/-! ## Lemmas: occupied slots and stored entries -/

namespace OpenAddressingHashtable

variable {TKey TValue : Type}

/-- In a probing layout no two slots hold the same non-zero hash code. -/
theorem probed_slot_unique {arr log : List (KeyValue TKey TValue)} (hP : Probed arr log)
    {i j : Nat} {a b : KeyValue TKey TValue} (ha : arr[i]? = some a) (hb : arr[j]? = some b)
    (hnz : a.hashcode ≠ 0) (heq : a.hashcode = b.hashcode) : i = j := by
  have hpa := hP.path i a ha hnz
  have hpb := hP.path j b hb (by omega)
  rw [← heq] at hpb
  have h1 := getKeyValue_unique arr a.key a.hashcode i hpa ⟨a, ha, Or.inl rfl⟩
  have h2 := getKeyValue_unique arr a.key a.hashcode j hpb ⟨b, hb, Or.inl heq.symm⟩
  rw [h1] at h2
  cases h2
  rfl

/-- In a probing layout the occupied slots are as many as the distinct non-zero hash codes
of the entries. -/
theorem probed_occupied {arr log : List (KeyValue TKey TValue)} (hP : Probed arr log) :
    occupied arr = (storedHashes log).card := by
  have hpw : arr.Pairwise (fun a b => a.hashcode ≠ 0 → a.hashcode ≠ b.hashcode) := by
    rw [List.pairwise_iff_getElem]
    intro i j hi hj hij hnz heq
    have := probed_slot_unique hP (List.getElem?_eq_getElem hi) (List.getElem?_eq_getElem hj)
      hnz heq
    omega
  have hnd : ((arr.filter (fun kv => decide (kv.hashcode ≠ 0))).map
      (fun kv => kv.hashcode)).Nodup := by
    rw [List.Nodup, List.pairwise_map]
    have hsub := hpw.sublist
      (@List.filter_sublist _ (fun kv : KeyValue TKey TValue => decide (kv.hashcode ≠ 0)) arr)
    refine hsub.imp_of_mem ?_
    intro a b ha _ hab
    have hnz : a.hashcode ≠ 0 := by simpa using (List.mem_filter.mp ha).2
    exact hab hnz
  have hset : ((arr.filter (fun kv => decide (kv.hashcode ≠ 0))).map
      (fun kv => kv.hashcode)).toFinset = storedHashes log := by
    ext h
    simp only [storedHashes, List.mem_toFinset, List.mem_map, List.mem_filter, Finset.mem_erase,
      decide_eq_true_eq]
    constructor
    · rintro ⟨kv, ⟨hmem, hnz⟩, rfl⟩
      refine ⟨hnz, ?_⟩
      obtain ⟨i, hi⟩ := List.mem_iff_getElem?.mp hmem
      have hv := hP.value i kv hi hnz
      cases hf : log.find? (fun e => decide (e.hashcode = kv.hashcode)) with
      | none => rw [hf] at hv; cases hv
      | some e =>
        refine ⟨e, List.mem_of_find?_eq_some hf, ?_⟩
        simpa using List.find?_some hf
    · rintro ⟨hnz, e, he, rfl⟩
      obtain ⟨i, kv, hkv, hhc⟩ := hP.present e he hnz
      exact ⟨kv, ⟨List.mem_iff_getElem?.mpr ⟨i, hkv⟩, by omega⟩, hhc⟩
  rw [← hset, List.toFinset_card_of_nodup hnd, List.length_map, occupied,
    List.countP_eq_length_filter]

theorem storedHashes_card_le (log : List (KeyValue TKey TValue)) :
    (storedHashes log).card ≤ log.length := by
  unfold storedHashes
  calc ((log.map (fun e => e.hashcode)).toFinset.erase 0).card
      ≤ (log.map (fun e => e.hashcode)).toFinset.card := Finset.card_erase_le
    _ ≤ (log.map (fun e => e.hashcode)).length := List.toFinset_card_le _
    _ = log.length := List.length_map _ _

theorem storedHashes_card_of_nodup (log : List (KeyValue TKey TValue))
    (hnd : (log.map (fun e => e.hashcode)).Nodup) (hnz : ∀ e ∈ log, e.hashcode ≠ 0) :
    (storedHashes log).card = log.length := by
  unfold storedHashes
  rw [Finset.erase_eq_of_not_mem, List.toFinset_card_of_nodup hnd, List.length_map]
  rw [List.mem_toFinset, List.mem_map]
  rintro ⟨e, he, h0⟩
  exact hnz e he h0

end OpenAddressingHashtable

namespace ClosedAddressingHashtable

variable {TKey TValue : Type}

end ClosedAddressingHashtable

/-! ## Lemmas: lookups across the rehash, empty slots, hash code 0 -/

namespace OpenAddressingHashtable

variable {TKey TValue : Type}

/-- In a probing layout the probe for a stored non-zero hash code ends on its slot, which
holds the value of the earliest entry with that hash code; no empty slot is needed. -/
theorem probed_lookup {arr log : List (KeyValue TKey TValue)} (hP : Probed arr log)
    (key : TKey) {h : Nat} (hh : h ≠ 0) (hstored : ∃ e ∈ log, e.hashcode = h) :
    ∃ (i : Nat) (kv : KeyValue TKey TValue), getKeyValue arr key h = .ok i ∧
      arr[i]? = some kv ∧ kv.hashcode = h ∧
      (log.find? (fun e => e.hashcode = h)).map (fun e => e.value) = some kv.value := by
  obtain ⟨e, he, heh⟩ := hstored
  obtain ⟨i, kv, hkv, hhc⟩ := hP.present e he (by omega)
  have hkh : kv.hashcode = h := by omega
  have hpath := hP.path i kv hkv (by omega)
  rw [hkh] at hpath
  have hval := hP.value i kv hkv (by omega)
  rw [hkh] at hval
  exact ⟨i, kv, getKeyValue_unique arr key h i hpath ⟨kv, hkv, Or.inl hkh⟩, hkv, hkh, hval⟩

/-- The lookups `get` and `exists` for a stored non-zero hash code depend on the log only,
not on the probing layout that stores it. -/
theorem probed_get_exists {arr log : List (KeyValue TKey TValue)} (hP : Probed arr log)
    (t : OpenAddressingHashtable TKey TValue) (ht : t._elements = arr) (key : TKey)
    (hh : t._hashFunction key ≠ 0) (hstored : ∃ e ∈ log, e.hashcode = t._hashFunction key) :
    t.exists key = .ok true ∧
    ∃ v, (log.find? (fun e => e.hashcode = t._hashFunction key)).map (fun e => e.value)
        = some v ∧ t.get key = .ok v := by
  obtain ⟨i, kv, hget, hkv, hkh, hval⟩ := probed_lookup hP key hh hstored
  constructor
  · unfold OpenAddressingHashtable.exists
    simp only [ht, hget, vectorAt, hkv, hkh, if_true]
  · refine ⟨kv.value, hval, ?_⟩
    unfold get
    simp only [ht, hget, vectorAt, hkv, hkh, if_true]

/-- The rehash of a resizing `add` preserves `get` and `exists` for every added key with a
non-zero hash code: they agree on the storage before the rehash and on the doubled storage
after it. -/
theorem rehash_preserves_lookup [Inhabited TKey] [Inhabited TValue]
    {t : OpenAddressingHashtable TKey TValue} {hashFunction : TKey → Nat}
    {adds : List (TKey × TValue)} (ht : t.Holds hashFunction adds) (key : TKey)
    (value : TValue) :
    ∃ old new, addToElements t._elements key value (hashFunction key) = .ok old ∧
      rehash old (List.replicate (old.length * 2) KeyValue.zero) = .ok new ∧
      new.length = old.length * 2 ∧
      ∀ k, hashFunction k ≠ 0 →
        (∃ q ∈ adds ++ [(key, value)], hashFunction q.1 = hashFunction k) →
        get { t with _elements := new, _currentCount := t._currentCount + 1 } k
          = get { t with _elements := old, _currentCount := t._currentCount + 1 } k ∧
        «exists» { t with _elements := new, _currentCount := t._currentCount + 1 } k
          = «exists» { t with _elements := old, _currentCount := t._currentCount + 1 } k := by
  obtain ⟨hh, hc, hlf, hroom, hP⟩ := ht
  have hocc : occupied (adds.map (entryOf hashFunction)) < t._elements.length := by
    have := occupied_le_length (adds.map (entryOf hashFunction))
    rw [List.length_map] at this
    omega
  obtain ⟨old, h1, hlen1, hP1⟩ := addToElements_probed hP hocc key value (hashFunction key)
  have hlog : adds.map (entryOf hashFunction) ++
      [{ key := key, value := value, hashcode := hashFunction key }]
        = (adds ++ [(key, value)]).map (entryOf hashFunction) := by
    simp [entryOf]
  rw [hlog] at hP1
  obtain ⟨new, h2, hlen2, hP2⟩ := rehash_probed old
    (List.replicate (old.length * 2) KeyValue.zero) [] (probed_replicate (by omega))
    (by
      have := occupied_le_length old
      have h0 : occupied ([] : List (KeyValue TKey TValue)) = 0 := rfl
      rw [h0, List.length_replicate]
      omega)
  have hP3 : Probed new ((adds ++ [(key, value)]).map (entryOf hashFunction)) :=
    probed_transfer hP1 (by simpa using hP2)
  refine ⟨old, new, h1, h2, by rw [hlen2, List.length_replicate], ?_⟩
  intro k hk hstored
  have hst : ∃ e ∈ (adds ++ [(key, value)]).map (entryOf hashFunction),
      e.hashcode = hashFunction k := by
    obtain ⟨q, hq, hqh⟩ := hstored
    exact ⟨entryOf hashFunction q, List.mem_map_of_mem _ hq, hqh⟩
  obtain ⟨hex1, v1, hv1, hg1⟩ := probed_get_exists hP1
    { t with _elements := old, _currentCount := t._currentCount + 1 } rfl k
    (by rw [hh]; exact hk) (by rw [hh]; exact hst)
  obtain ⟨hex3, v3, hv3, hg3⟩ := probed_get_exists hP3
    { t with _elements := new, _currentCount := t._currentCount + 1 } rfl k
    (by rw [hh]; exact hk) (by rw [hh]; exact hst)
  rw [hv1] at hv3
  cases hv3
  exact ⟨by rw [hg1, hg3], by rw [hex1, hex3]⟩

/-- A table that `Holds` has an empty slot. -/
theorem probing_empty_slot {t : OpenAddressingHashtable TKey TValue}
    {hashFunction : TKey → Nat} {adds : List (TKey × TValue)} (ht : t.Holds hashFunction adds) :
    occupied t._elements < t._elements.length ∧
    ∃ (i : Nat) (kv : KeyValue TKey TValue), t._elements[i]? = some kv ∧ kv.hashcode = 0 := by
  obtain ⟨_, hc, _, hroom, hP⟩ := ht
  have hocc : occupied t._elements < t._elements.length := by
    have h1 := occupied_le_length (adds.map (entryOf hashFunction))
    have h2 := hP.occupied_le
    rw [List.length_map] at h1
    omega
  exact ⟨hocc, exists_empty hocc⟩

/-- In a table that `Holds`, a key of hash code 0 is always found: the probe ends on an
empty slot and `get` returns the value stored there. -/
theorem probing_zero_hash {t : OpenAddressingHashtable TKey TValue}
    {hashFunction : TKey → Nat} {adds : List (TKey × TValue)} (ht : t.Holds hashFunction adds)
    (key : TKey) (hk : hashFunction key = 0) :
    t.exists key = .ok true ∧
    ∃ kv ∈ t._elements, kv.hashcode = 0 ∧ t.get key = .ok kv.value := by
  obtain ⟨p, kv, hget, hkv, hstop⟩ := probing_probe ht key (hashFunction key)
  have hh : t._hashFunction = hashFunction := ht.1
  have hz : kv.hashcode = hashFunction key := by
    rcases hstop with h1 | h1
    · exact h1
    · rw [h1, hk]
  constructor
  · unfold OpenAddressingHashtable.exists
    simp only [hh, hget, vectorAt, hkv, hz, if_true]
  · refine ⟨kv, List.mem_iff_getElem?.mpr ⟨p, hkv⟩, by rw [hz, hk], ?_⟩
    unfold get
    simp only [hh, hget, vectorAt, hkv, hz, if_true]

end OpenAddressingHashtable

namespace ClosedAddressingHashtable

variable {TKey TValue : Type}

/-- A chained table that `Holds` never fails in `get`, `exists` or `add` other than by
NotFound. -/
theorem chained_safe {t : ClosedAddressingHashtable TKey TValue} {hashFunction : TKey → Nat}
    {adds : List (TKey × TValue)} (ht : t.Holds hashFunction adds) (key : TKey) :
    (∃ b, bucketOf t._elements (t._hashFunction key)
      = .ok (t._hashFunction key % t._elements.length, b)) ∧
    ((∃ v, t.get key = .ok v) ∨ t.get key = .error .NotFoundException) ∧
    (∃ b, t.exists key = .ok b) ∧ ∀ value, ∃ t', t.add key value = .ok t' := by
  have hget := chained_get ht key
  have hex := chained_exists ht key
  refine ⟨?_, ?_, ⟨_, hex⟩, ?_⟩
  · obtain ⟨_, _, n, hn, he⟩ := ht
    exact ⟨_, bucketOf_eq (by rw [he, layout_length]; exact hn) _ rfl _⟩
  · rw [hget]
    cases earliestAdd hashFunction adds (hashFunction key) with
    | none => exact Or.inr rfl
    | some v => exact Or.inl ⟨v, rfl⟩
  · intro value
    obtain ⟨t', h', _⟩ := chained_add ht key value
    exact ⟨t', h'⟩

end ClosedAddressingHashtable

/-! ## The claims -/

/-- C1: in a ClosedAddressingHashtable built with any threshold and any hash function, after
any sequence of add calls, get(k) returns the value of the earliest add whose key has the
hash code of k, and fails with NotFound exactly when no added key has that hash code; in
particular once add(k, v1) is the first add with that hash code, later adds (of k again or of
anything else) leave get(k) at v1. -/
theorem closed_get_earliest_add {TKey TValue : Type} (loadFactor : ℚ)
    (hashFunction : TKey → Nat) (adds : List (TKey × TValue)) (key : TKey) :
    ∃ t, ClosedAddressingHashtable.build loadFactor hashFunction adds = .ok t ∧
      (t.get key = match earliestAdd hashFunction adds (hashFunction key) with
        | some v => .ok v
        | none => .error .NotFoundException) ∧
      (t.get key = .error .NotFoundException ↔
        ∀ p ∈ adds, hashFunction p.1 ≠ hashFunction key) ∧
      (∀ (pre rest : List (TKey × TValue)) (v1 : TValue), adds = pre ++ (key, v1) :: rest →
        (∀ p ∈ pre, hashFunction p.1 ≠ hashFunction key) → t.get key = .ok v1) := by
  obtain ⟨t, hb, ht⟩ := ClosedAddressingHashtable.chained_build loadFactor hashFunction adds
  have hget := ClosedAddressingHashtable.chained_get ht key
  refine ⟨t, hb, hget, ?_, ?_⟩
  · rw [hget, ← earliestAdd_eq_none_iff]
    cases earliestAdd hashFunction adds (hashFunction key) <;> simp
  · intro pre rest v1 hadds hpre
    have : earliestAdd hashFunction adds (hashFunction key) = some v1 := by
      subst hadds
      unfold earliestAdd
      rw [List.find?_append]
      have hnone : pre.find? (fun p => decide (hashFunction p.1 = hashFunction key)) = none := by
        rw [List.find?_eq_none]
        intro x hx
        simpa using hpre x hx
      simp [hnone]
    rw [hget, this]

/-- Witness of C1: after add(7, 1) and add(7, 2) on a chained table, get(7) returns 1. -/
theorem closed_get_earliest_add_witness :
    ∃ t : ClosedAddressingHashtable Nat Nat,
      ClosedAddressingHashtable.build 3 (fun k : Nat => k)
        [(7, 1), (7, 2)] = .ok t ∧
      t.get 7 = .ok 1 := by
  obtain ⟨t, hb, _, _, h⟩ := closed_get_earliest_add 3 (fun k : Nat => k) [(7, 1), (7, 2)] 7
  exact ⟨t, hb, h [] [(7, 2)] 1 rfl (by simp)⟩

/-- Counterexample to C2 as stated: with the identity hash, after add(0, 5) and add(10, 7)
on an open table with threshold 0.6f, get(0) returns 0, not 5; and with a hash function that
maps the distinct keys 1 and 8 to one hash code, after add(1, 1) and add(8, 2), get(8)
returns 1, not 2. -/
theorem open_get_distinct_keys_counterexample :
    (∃ t : OpenAddressingHashtable Nat Nat,
      OpenAddressingHashtable.build threshold06 (fun k : Nat => k) [(0, 5), (10, 7)] = .ok t ∧
        t.get 0 = .ok 0 ∧ t.get 0 ≠ .ok 5) ∧
    (∃ t : OpenAddressingHashtable Nat Nat,
      OpenAddressingHashtable.build threshold06 (fun k : Nat => k % 7 + 1) [(1, 1), (8, 2)]
        = .ok t ∧ t.get 8 = .ok 1 ∧ t.get 8 ≠ .ok 2) := by
  refine ⟨⟨_, rfl, rfl, ?_⟩, ⟨_, rfl, rfl, ?_⟩⟩
  · intro h
    have h' : (Except.ok 0 : Except Exception Nat) = Except.ok 5 := h
    exact absurd (Except.ok.inj h') (by decide)
  · intro h
    have h' : (Except.ok 1 : Except Exception Nat) = Except.ok 2 := h
    exact absurd (Except.ok.inj h') (by decide)

/-- C2, amended: in an OpenAddressingHashtable built with a threshold < 1.0, after any
sequence of add(k, v) calls whose keys have pairwise distinct hash codes, get(k) returns the
v that was added with k, for every added key k whose hash code is non-zero. -/
theorem open_get_distinct_hashes {TKey TValue : Type} [Inhabited TKey] [Inhabited TValue]
    (loadFactor : ℚ) (hlf : loadFactor < 1) (hashFunction : TKey → Nat)
    (adds : List (TKey × TValue)) (hdistinct : (adds.map (fun q => hashFunction q.1)).Nodup)
    (key : TKey) (value : TValue) (hadded : (key, value) ∈ adds)
    (hk : hashFunction key ≠ 0) :
    ∃ t, OpenAddressingHashtable.build loadFactor hashFunction adds = .ok t ∧
      t.get key = .ok value := by
  obtain ⟨t, hb, ht, _⟩ := OpenAddressingHashtable.probing_build hlf hashFunction adds
  refine ⟨t, hb, ?_⟩
  rw [OpenAddressingHashtable.probing_get ht key hk,
    earliestAdd_of_nodup hashFunction adds hdistinct (key, value) hadded]

/-- Witness of C2, amended: keys 1..6 with values 1000000 - key; get(3) returns 999997. -/
theorem open_get_distinct_hashes_witness :
    ∃ t : OpenAddressingHashtable Nat Nat,
      OpenAddressingHashtable.build threshold06 (fun k : Nat => k)
        [(1, 999999), (2, 999998), (3, 999997), (4, 999996), (5, 999995), (6, 999994)] = .ok t ∧
      t.get 3 = .ok 999997 :=
  open_get_distinct_hashes threshold06 (by decide) (fun k : Nat => k)
    [(1, 999999), (2, 999998), (3, 999997), (4, 999996), (5, 999995), (6, 999994)]
    (by decide) 3 999997 (by decide) (by decide)

/-- C3: in an OpenAddressingHashtable built with a threshold < 1.0, after any sequence of
add calls, for every key k with a non-zero hash code, get(k) returns the value of the
earliest add whose key has the hash code of k and fails with NotFound when no added key has
that hash code; adding k again, once its hash code is stored, does not change what get(k)
returns. -/
theorem open_get_earliest_add {TKey TValue : Type} [Inhabited TKey] [Inhabited TValue]
    (loadFactor : ℚ) (hlf : loadFactor < 1) (hashFunction : TKey → Nat)
    (adds : List (TKey × TValue)) (key : TKey) (hk : hashFunction key ≠ 0) :
    ∃ t, OpenAddressingHashtable.build loadFactor hashFunction adds = .ok t ∧
      (t.get key = match earliestAdd hashFunction adds (hashFunction key) with
        | some v => .ok v
        | none => .error .NotFoundException) ∧
      ((∀ p ∈ adds, hashFunction p.1 ≠ hashFunction key) →
        t.get key = .error .NotFoundException) ∧
      (∀ value : TValue, (∃ p ∈ adds, hashFunction p.1 = hashFunction key) →
        ∃ t', OpenAddressingHashtable.build loadFactor hashFunction (adds ++ [(key, value)])
          = .ok t' ∧ t'.get key = t.get key) := by
  obtain ⟨t, hb, ht, _⟩ := OpenAddressingHashtable.probing_build hlf hashFunction adds
  have hget := OpenAddressingHashtable.probing_get ht key hk
  refine ⟨t, hb, hget, ?_, ?_⟩
  · intro hnone
    rw [hget, (earliestAdd_eq_none_iff hashFunction adds (hashFunction key)).mpr hnone]
  · intro value hsome
    obtain ⟨t', hb', ht', _⟩ :=
      OpenAddressingHashtable.probing_build hlf hashFunction (adds ++ [(key, value)])
    refine ⟨t', hb', ?_⟩
    rw [hget, OpenAddressingHashtable.probing_get ht' key hk]
    have : earliestAdd hashFunction (adds ++ [(key, value)]) (hashFunction key)
        = earliestAdd hashFunction adds (hashFunction key) := by
      unfold earliestAdd
      rw [List.find?_append]
      cases hf : adds.find? (fun p => decide (hashFunction p.1 = hashFunction key)) with
      | none =>
        exfalso
        rw [List.find?_eq_none] at hf
        obtain ⟨p, hp, hph⟩ := hsome
        exact hf p hp (by simpa using hph)
      | some q => rfl
    rw [this]

/-- Witness of C3: add(3, 999997) then add(3, 5) on an open table; get(3) returns 999997. -/
theorem open_get_earliest_add_witness :
    ∃ t : OpenAddressingHashtable Nat Nat,
      OpenAddressingHashtable.build threshold06 (fun k : Nat => k)
        [(3, 999997), (3, 5)] = .ok t ∧ t.get 3 = .ok 999997 := by
  obtain ⟨t, hb, hget, _⟩ := open_get_earliest_add threshold06 (by decide) (fun k : Nat => k)
    [(3, 999997), (3, 5)] 3 (by decide)
  exact ⟨t, hb, by simpa [earliestAdd] using hget⟩

/-- C4: in an OpenAddressingHashtable built with a threshold < 1.0, for every key k,
whatever its hash code, exists(k) returns true right after add(k, _) and after every further
sequence of add calls. -/
theorem open_exists_after_add {TKey TValue : Type} [Inhabited TKey] [Inhabited TValue]
    (loadFactor : ℚ) (hlf : loadFactor < 1) (hashFunction : TKey → Nat)
    (before : List (TKey × TValue)) (key : TKey) (value : TValue)
    (further : List (TKey × TValue)) :
    ∃ t, OpenAddressingHashtable.build loadFactor hashFunction
        (before ++ (key, value) :: further) = .ok t ∧ t.exists key = .ok true := by
  obtain ⟨t, hb, ht, _⟩ :=
    OpenAddressingHashtable.probing_build hlf hashFunction (before ++ (key, value) :: further)
  exact ⟨t, hb, OpenAddressingHashtable.probing_exists_hit ht key
    (Or.inr ⟨(key, value), by simp, rfl⟩)⟩

/-- Witness of C4: key 0 (hash code 0) added between other keys. -/
theorem open_exists_after_add_witness :
    ∃ t : OpenAddressingHashtable Nat Nat,
      OpenAddressingHashtable.build threshold06 (fun k : Nat => k)
        ([(5, 50)] ++ (0, 7) :: [(10, 1), (20, 2)]) = .ok t ∧ t.exists 0 = .ok true :=
  open_exists_after_add threshold06 (by decide) (fun k : Nat => k) [(5, 50)] 0 7
    [(10, 1), (20, 2)]

/-- C5: in a ClosedAddressingHashtable, after any sequence of add calls, exists(k) returns
true if some added key has the hash code of k and returns false, raising nothing, otherwise;
so it is true right after add(k, _) and under every further add, and it is true exactly when
get(k) succeeds. -/
theorem closed_exists_iff_added {TKey TValue : Type} (loadFactor : ℚ)
    (hashFunction : TKey → Nat) (adds : List (TKey × TValue)) (key : TKey) :
    ∃ t, ClosedAddressingHashtable.build loadFactor hashFunction adds = .ok t ∧
      t.exists key = .ok (adds.any (fun p => decide (hashFunction p.1 = hashFunction key))) ∧
      (∀ (before further : List (TKey × TValue)) (value : TValue),
        adds = before ++ (key, value) :: further → t.exists key = .ok true) ∧
      (t.exists key = .ok true ↔ ∃ v, t.get key = .ok v) := by
  obtain ⟨t, hb, ht⟩ := ClosedAddressingHashtable.chained_build loadFactor hashFunction adds
  have hex := ClosedAddressingHashtable.chained_exists ht key
  have hget := ClosedAddressingHashtable.chained_get ht key
  have hany := isSome_earliestAdd hashFunction adds (hashFunction key)
  refine ⟨t, hb, by rw [hex, hany], ?_, ?_⟩
  · intro before further value hadds
    rw [hex, hany]
    subst hadds
    simp
  · rw [hex, hget]
    cases earliestAdd hashFunction adds (hashFunction key) <;> simp

/-- Witness of C5: on a chained table with threshold 3, after add(4, 1) and add(14, 2) (one
bucket, two hash codes) exists(4) and exists(14) both return true. -/
theorem closed_exists_iff_added_witness :
    ∃ t : ClosedAddressingHashtable Nat Nat,
      ClosedAddressingHashtable.build 3 (fun k : Nat => k)
        [(4, 1), (14, 2)] = .ok t ∧
      t.exists 4 = .ok true ∧ t.exists 14 = .ok true := by
  obtain ⟨t, hb, _, h, _⟩ := closed_exists_iff_added 3 (fun k : Nat => k) [(4, 1), (14, 2)] 4
  obtain ⟨t2, hb2, _, h2, _⟩ := closed_exists_iff_added 3 (fun k : Nat => k) [(4, 1), (14, 2)] 14
  rw [hb] at hb2
  cases hb2
  exact ⟨t, hb, h [] [(14, 2)] 1 rfl, h2 [(4, 1)] [] 2 rfl⟩

/-- C6, the code at a miss: on an open table with threshold 0.6f holding the keys 1..6,
exists(99) does not return false: it raises the thrown bool of its last statement. -/
theorem open_exists_miss_throws :
    ∃ t : OpenAddressingHashtable Nat Nat,
      OpenAddressingHashtable.build threshold06 (fun k : Nat => k)
        [(1, 999999), (2, 999998), (3, 999997), (4, 999996), (5, 999995), (6, 999994)] = .ok t ∧
      t.exists 99 = .error (.thrownBool false) :=
  ⟨_, rfl, rfl⟩

/-- C7, the code at a key of hash code 0 that was never added: on an open table with
threshold 0.6f, freshly constructed or holding the keys 1..6, get(0) does not fail with
NotFound: it returns the value of an empty slot, 0. -/
theorem open_get_zero_hash_not_added :
    (∃ t : OpenAddressingHashtable Nat Nat,
      OpenAddressingHashtable.build threshold06 (fun k : Nat => k)
        ([] : List (Nat × Nat)) = .ok t ∧ t.get 0 = .ok 0) ∧
    (∃ t : OpenAddressingHashtable Nat Nat,
      OpenAddressingHashtable.build threshold06 (fun k : Nat => k)
        [(1, 999999), (2, 999998), (3, 999997), (4, 999996), (5, 999995), (6, 999994)] = .ok t ∧
      t.get 0 = .ok 0) :=
  ⟨⟨_, rfl, rfl⟩, ⟨_, rfl, rfl⟩⟩

/-- C8: constructing an OpenAddressingHashtable with a threshold >= 1.0 fails with
InvalidLoadFactor (no table is produced); with a threshold < 1.0 it succeeds and yields a
table with capacity 10, count 0, loadFactor 0 and every slot empty. -/
theorem open_constructor {TKey TValue : Type} [Inhabited TKey] [Inhabited TValue]
    (loadFactor : ℚ) (hashFunction : TKey → Nat) :
    (loadFactor ≥ 1 →
      (OpenAddressingHashtable.new loadFactor hashFunction :
        Except Exception (OpenAddressingHashtable TKey TValue))
        = .error .InvalidLoadFactorException) ∧
    (loadFactor < 1 →
      ∃ t : OpenAddressingHashtable TKey TValue,
        OpenAddressingHashtable.new loadFactor hashFunction = .ok t ∧
        t._elements.length = 10 ∧ t._currentCount = 0 ∧ t.loadFactor = 0 ∧
        t._requestedLoadFactor = loadFactor ∧ ∀ kv ∈ t._elements, kv.hashcode = 0) := by
  constructor
  · intro h
    rw [OpenAddressingHashtable.new, if_pos h]
  · intro h
    refine ⟨_, by rw [OpenAddressingHashtable.new, if_neg (not_le.mpr h)], by simp, rfl, ?_,
      rfl, ?_⟩
    · exact float32Div_zero _
    · intro kv hkv
      rw [List.mem_replicate] at hkv
      rw [hkv.2]
      rfl

/-- Witness of C8: threshold 1 is refused, threshold 0.6f gives ten empty slots. -/
theorem open_constructor_witness :
    (OpenAddressingHashtable.new 1 (fun k : Nat => k) :
        Except Exception (OpenAddressingHashtable Nat Nat))
      = .error .InvalidLoadFactorException ∧
    ∃ t : OpenAddressingHashtable Nat Nat,
      OpenAddressingHashtable.new threshold06 (fun k : Nat => k) = .ok t ∧
        t._elements.length = 10 ∧ t._currentCount = 0 ∧ t.loadFactor = 0 ∧
        t._requestedLoadFactor = threshold06 ∧ ∀ kv ∈ t._elements, kv.hashcode = 0 :=
  ⟨(open_constructor 1 (fun k : Nat => k)).1 (le_refl 1),
    (open_constructor threshold06 (fun k : Nat => k)).2 (by decide)⟩

/-- Counterexample to C9 as stated: constructing a ClosedAddressingHashtable with threshold
exactly 1 succeeds; it does not fail with InvalidLoadFactor. -/
theorem closed_constructor_counterexample :
    (∃ t : ClosedAddressingHashtable Nat Nat,
      ClosedAddressingHashtable.new 1 (fun k : Nat => k) = .ok t) ∧
    (ClosedAddressingHashtable.new 1 (fun k : Nat => k) :
        Except Exception (ClosedAddressingHashtable Nat Nat))
      ≠ .error .InvalidLoadFactorException :=
  ⟨⟨_, rfl⟩, by intro h; cases h⟩

/-- C9, amended: constructing a ClosedAddressingHashtable succeeds for every threshold,
also one >= 1.0: it yields ten empty buckets and count 0, and every sequence of add calls
on it succeeds. -/
theorem closed_constructor {TKey TValue : Type} (loadFactor : ℚ)
    (hashFunction : TKey → Nat) :
    ∃ t : ClosedAddressingHashtable TKey TValue,
      ClosedAddressingHashtable.new loadFactor hashFunction = .ok t ∧
      t._elements = List.replicate 10 [] ∧ t._currentCount = 0 ∧ t.loadFactor = 0 ∧
      t._requestedLoadFactor = loadFactor ∧
      ∀ adds : List (TKey × TValue), ∃ t', t.addAll adds = .ok t' := by
  refine ⟨_, rfl, rfl, rfl, ?_, rfl, ?_⟩
  · exact float32Div_zero _
  · intro adds
    obtain ⟨t0, h0, ht0⟩ :=
      @ClosedAddressingHashtable.chained_new TKey TValue loadFactor hashFunction
    cases h0
    obtain ⟨t', h', _⟩ := ClosedAddressingHashtable.chained_addAll hashFunction adds _ [] ht0
    exact ⟨t', h'⟩

/-- Counterexample to C10 as stated. With threshold 1/64, after add(1, 1) and add(2, 2) the
table has count 2 and capacity 40: the exact ratio 2/40 and the value of loadFactor() are
both above the threshold and above 1/capacity. With threshold 0.7f, after the adds of the
keys 1..7 the table has count 7 and capacity 10, because the binary32 quotient of 7 by 10 is
0.7f itself and does not exceed the threshold: the exact ratio 7/10 is above 0.7f and above
1/capacity. -/
theorem open_loadFactor_bound_counterexample :
    (∃ t : OpenAddressingHashtable Nat Nat,
      OpenAddressingHashtable.build (mkRat 1 64) (fun k : Nat => k)
        [(1, 1), (2, 2)] = .ok t ∧
      t._currentCount = 2 ∧ t._elements.length = 40 ∧
      ¬ ((t._currentCount : ℚ) / (t._elements.length : ℚ)
          ≤ max (mkRat 1 64) (1 / (t._elements.length : ℚ))) ∧
      ¬ (t.loadFactor ≤ max (mkRat 1 64) (1 / (t._elements.length : ℚ)))) ∧
    (∃ t : OpenAddressingHashtable Nat Nat,
      OpenAddressingHashtable.build threshold07 (fun k : Nat => k)
        [(1, 1), (2, 2), (3, 3), (4, 4), (5, 5), (6, 6), (7, 7)] = .ok t ∧
      t._currentCount = 7 ∧ t._elements.length = 10 ∧
      (1 : ℚ) / 20 ≤ threshold07 ∧ threshold07 < 1 ∧ t.loadFactor = threshold07 ∧
      ¬ ((t._currentCount : ℚ) / (t._elements.length : ℚ)
          ≤ max threshold07 (1 / (t._elements.length : ℚ)))) := by
  constructor
  · obtain ⟨t, hb, hcount, hlen, hlf⟩ : ∃ t : OpenAddressingHashtable Nat Nat,
        OpenAddressingHashtable.build (mkRat 1 64)
        (fun k : Nat => k) [(1, 1), (2, 2)] = .ok t ∧ t._currentCount = 2 ∧
        t._elements.length = 40 ∧ t.loadFactor = mkRat 13421773 268435456 :=
      ⟨_, rfl, rfl, rfl, by decide⟩
    refine ⟨t, hb, hcount, hlen, ?_, ?_⟩
    · rw [hcount, hlen, Rat.mkRat_eq_div]
      norm_num
    · rw [hlf, hlen, Rat.mkRat_eq_div, Rat.mkRat_eq_div]
      norm_num
  · obtain ⟨t, hb, hcount, hlen, hlf⟩ : ∃ t : OpenAddressingHashtable Nat Nat,
        OpenAddressingHashtable.build threshold07
        (fun k : Nat => k) [(1, 1), (2, 2), (3, 3), (4, 4), (5, 5), (6, 6), (7, 7)] = .ok t ∧
        t._currentCount = 7 ∧ t._elements.length = 10 ∧ t.loadFactor = threshold07 :=
      ⟨_, rfl, rfl, rfl, by decide⟩
    have h07 : threshold07 = mkRat 11744051 16777216 := threshold_values.2.1
    refine ⟨t, hb, hcount, hlen, ?_, by decide, hlf, ?_⟩
    · rw [h07, Rat.mkRat_eq_div]
      norm_num
    · rw [hcount, hlen, h07, Rat.mkRat_eq_div]
      norm_num

/-- C10, amended: for an OpenAddressingHashtable built with a binary32 threshold t with
1/20 <= t < 1.0, immediately after every add returns, the value loadFactor() returns, the
binary32 quotient of the count by the capacity, is at most t, hence at most
max(t, 1/capacity), with the capacity after that add. -/
theorem open_loadFactor_bound {TKey TValue : Type} [Inhabited TKey] [Inhabited TValue]
    (loadFactor : ℚ) (hbin : roundBinary32 loadFactor = loadFactor)
    (hlo : 1 / 20 ≤ loadFactor) (hhi : loadFactor < 1)
    (hashFunction : TKey → Nat) (adds : List (TKey × TValue)) (hne : adds ≠ []) :
    ∃ t, OpenAddressingHashtable.build loadFactor hashFunction adds = .ok t ∧
      t.loadFactor = float32Div t._currentCount t._elements.length ∧
      t.loadFactor ≤ loadFactor ∧
      t.loadFactor ≤ max loadFactor (1 / (t._elements.length : ℚ)) := by
  obtain ⟨t0, h0, ht0, hl0⟩ :=
    @OpenAddressingHashtable.probing_new TKey TValue _ _ loadFactor hhi hashFunction
  have hfresh : t0._currentCount = 0 ∧ t0._elements.length = 10 := by
    rw [OpenAddressingHashtable.new, if_neg (not_le.mpr hhi)] at h0
    cases h0
    exact ⟨rfl, by simp⟩
  obtain ⟨t, h, hthr, hle⟩ := OpenAddressingHashtable.loadFactor_le_addAll hashFunction adds
    t0 [] ht0 (by rw [hl0]; exact hbin) (by rw [hl0]; exact hlo) (Or.inr hfresh)
  have hb : OpenAddressingHashtable.build loadFactor hashFunction adds = .ok t := by
    simp [OpenAddressingHashtable.build, h0, h]
  have hfinal : t.loadFactor ≤ loadFactor := by
    have := hle (Or.inl hne)
    rwa [hthr, hl0] at this
  exact ⟨t, hb, rfl, hfinal, le_trans hfinal (le_max_left _ _)⟩

/-- Witness of C10, amended: threshold 0.6f and seven adds (one resize). -/
theorem open_loadFactor_bound_witness :
    ∃ t : OpenAddressingHashtable Nat Nat,
      OpenAddressingHashtable.build threshold06 (fun k : Nat => k)
        [(1, 1), (2, 2), (3, 3), (4, 4), (5, 5), (6, 6), (7, 7)] = .ok t ∧
      t.loadFactor = float32Div t._currentCount t._elements.length ∧
      t.loadFactor ≤ threshold06 ∧
      t.loadFactor ≤ max threshold06 (1 / (t._elements.length : ℚ)) :=
  open_loadFactor_bound threshold06 (by decide)
    (by rw [threshold_values.1, Rat.mkRat_eq_div]; norm_num) (by decide)
    (fun k : Nat => k) [(1, 1), (2, 2), (3, 3), (4, 4), (5, 5), (6, 6), (7, 7)] (by simp)

/-- Counterexample to C11 as stated, in both variants: with threshold 0.7f and the identity
hash, after the adds of the keys 1..6 the count is 6 and the capacity 10; the exact ratio
7/10 exceeds the threshold, yet the add of key 7 leaves the capacity at 10, because the
binary32 quotient of 7 by 10 is 0.7f itself. -/
theorem add_capacity_exact_ratio_counterexample :
    (∃ t t' : OpenAddressingHashtable Nat Nat,
      OpenAddressingHashtable.build threshold07 (fun k : Nat => k)
        [(1, 1), (2, 2), (3, 3), (4, 4), (5, 5), (6, 6)] = .ok t ∧
      t.add 7 7 = .ok t' ∧ t._currentCount = 6 ∧ t._elements.length = 10 ∧
      ((t._currentCount + 1 : ℕ) : ℚ) / (t._elements.length : ℚ) > threshold07 ∧
      t'._currentCount = 7 ∧ t'._elements.length = 10 ∧ t'.loadFactor = threshold07) ∧
    (∃ t t' : ClosedAddressingHashtable Nat Nat,
      ClosedAddressingHashtable.build threshold07 (fun k : Nat => k)
        [(1, 1), (2, 2), (3, 3), (4, 4), (5, 5), (6, 6)] = .ok t ∧
      t.add 7 7 = .ok t' ∧ t._currentCount = 6 ∧ t._elements.length = 10 ∧
      ((t._currentCount + 1 : ℕ) : ℚ) / (t._elements.length : ℚ) > threshold07 ∧
      t'._currentCount = 7 ∧ t'._elements.length = 10 ∧ t'.loadFactor = threshold07) := by
  have h07 : threshold07 = mkRat 11744051 16777216 := threshold_values.2.1
  constructor
  · obtain ⟨t, t', hb, hadd, hc, hn, hc', hn', hlf⟩ :
        ∃ t t' : OpenAddressingHashtable Nat Nat,
        OpenAddressingHashtable.build threshold07 (fun k : Nat => k)
          [(1, 1), (2, 2), (3, 3), (4, 4), (5, 5), (6, 6)] = .ok t ∧
        t.add 7 7 = .ok t' ∧ t._currentCount = 6 ∧ t._elements.length = 10 ∧
        t'._currentCount = 7 ∧ t'._elements.length = 10 ∧ t'.loadFactor = threshold07 :=
      ⟨_, _, rfl, rfl, rfl, rfl, rfl, rfl, by decide⟩
    refine ⟨t, t', hb, hadd, hc, hn, ?_, hc', hn', hlf⟩
    rw [hc, hn, h07, Rat.mkRat_eq_div]
    norm_num
  · obtain ⟨t, t', hb, hadd, hc, hn, hc', hn', hlf⟩ :
        ∃ t t' : ClosedAddressingHashtable Nat Nat,
        ClosedAddressingHashtable.build threshold07 (fun k : Nat => k)
          [(1, 1), (2, 2), (3, 3), (4, 4), (5, 5), (6, 6)] = .ok t ∧
        t.add 7 7 = .ok t' ∧ t._currentCount = 6 ∧ t._elements.length = 10 ∧
        t'._currentCount = 7 ∧ t'._elements.length = 10 ∧ t'.loadFactor = threshold07 :=
      ⟨_, _, rfl, rfl, rfl, rfl, rfl, rfl, by decide⟩
    refine ⟨t, t', hb, hadd, hc, hn, ?_, hc', hn', hlf⟩
    rw [hc, hn, h07, Rat.mkRat_eq_div]
    norm_num

/-- C11, amended: in both variants, with c the count and n the capacity before an add, the
count after the add is c + 1 and the capacity after it is exactly 2n if the binary32
quotient of c + 1 by n, the value loadFactor() returns inside resizeIfRequired, exceeds the
threshold and exactly n otherwise, so the capacity never decreases and only ever doubles;
an open table with threshold 0.6f has capacity 10 after 6 adds and 20 after the 7th, a
closed table with threshold 3 has 10 buckets after 30 adds and 20 after the 31st. -/
theorem add_count_and_capacity {TKey TValue : Type} [Inhabited TKey] [Inhabited TValue]
    (hashFunction : TKey → Nat) :
    (∀ (threshold : ℚ), threshold < 1 → ∀ (adds : List (TKey × TValue)) (key : TKey)
        (value : TValue),
      ∃ t t' : OpenAddressingHashtable TKey TValue,
        OpenAddressingHashtable.build threshold hashFunction adds = .ok t ∧
        t.add key value = .ok t' ∧ t'._currentCount = t._currentCount + 1 ∧
        t'._elements.length =
          (if float32Div (t._currentCount + 1) t._elements.length > threshold
            then t._elements.length * 2 else t._elements.length) ∧
        (t'._elements.length = t._elements.length ∨
          t'._elements.length = t._elements.length * 2)) ∧
    (∀ (threshold : ℚ) (adds : List (TKey × TValue)) (key : TKey) (value : TValue),
      ∃ t t' : ClosedAddressingHashtable TKey TValue,
        ClosedAddressingHashtable.build threshold hashFunction adds = .ok t ∧
        t.add key value = .ok t' ∧ t'._currentCount = t._currentCount + 1 ∧
        t'._elements.length =
          (if float32Div (t._currentCount + 1) t._elements.length > threshold
            then t._elements.length * 2 else t._elements.length) ∧
        (t'._elements.length = t._elements.length ∨
          t'._elements.length = t._elements.length * 2)) ∧
    (∀ adds : List (TKey × TValue),
      ∃ t : OpenAddressingHashtable TKey TValue,
        OpenAddressingHashtable.build threshold06 hashFunction adds = .ok t ∧
        (adds.length = 6 → t._elements.length = 10) ∧
        (adds.length = 7 → t._elements.length = 20)) ∧
    (∀ adds : List (TKey × TValue),
      ∃ t : ClosedAddressingHashtable TKey TValue,
        ClosedAddressingHashtable.build 3 hashFunction adds = .ok t ∧
        (adds.length = 30 → t._elements.length = 10) ∧
        (adds.length = 31 → t._elements.length = 20)) := by
  refine ⟨?_, ?_, ?_, ?_⟩
  · intro threshold hlf adds key value
    obtain ⟨t, hb, ht, hthr⟩ := OpenAddressingHashtable.probing_build hlf hashFunction adds
    obtain ⟨t', hadd, ht', _, hlen⟩ := OpenAddressingHashtable.probing_add ht key value
    have hc : t'._currentCount = t._currentCount + 1 := by
      rw [ht'.2.1, ht.2.1, List.length_append]
      rfl
    rw [hthr] at hlen
    refine ⟨t, t', hb, hadd, hc, hlen, ?_⟩
    rw [hlen]
    split
    · exact Or.inr rfl
    · exact Or.inl rfl
  · intro threshold adds key value
    obtain ⟨t, hb, ht, hthr, _⟩ :=
      ClosedAddressingHashtable.chained_capacity threshold hashFunction adds
    obtain ⟨t', hadd, ht', _, hlen⟩ := ClosedAddressingHashtable.chained_add ht key value
    have hc : t'._currentCount = t._currentCount + 1 := by
      rw [ht'.2.1, ht.2.1, List.length_append]
      rfl
    rw [hthr] at hlen
    refine ⟨t, t', hb, hadd, hc, hlen, ?_⟩
    rw [hlen]
    split
    · exact Or.inr rfl
    · exact Or.inl rfl
  · intro adds
    obtain ⟨t, hb, _, _, hlen⟩ :=
      OpenAddressingHashtable.probing_capacity (by decide : threshold06 < 1) hashFunction adds
    refine ⟨t, hb, ?_, ?_⟩
    · intro h6
      rw [hlen, h6]
      exact capacityAfter_open_example.1
    · intro h7
      rw [hlen, h7]
      exact capacityAfter_open_example.2
  · intro adds
    obtain ⟨t, hb, _, _, hlen⟩ :=
      ClosedAddressingHashtable.chained_capacity 3 hashFunction adds
    refine ⟨t, hb, ?_, ?_⟩
    · intro h30
      rw [hlen, h30]
      exact capacityAfter_closed_example.1
    · intro h31
      rw [hlen, h31]
      exact capacityAfter_closed_example.2

/-- Witness of C11, amended: on the open table with threshold 0.6f and the identity hash,
after the adds of the keys 1..6 the capacity is 10, and the add of key 7 follows the rule. -/
theorem add_count_and_capacity_witness :
    (∃ t : OpenAddressingHashtable Nat Nat,
      OpenAddressingHashtable.build threshold06 (fun k : Nat => k)
        [(1, 999999), (2, 999998), (3, 999997), (4, 999996), (5, 999995), (6, 999994)] = .ok t ∧
      t._elements.length = 10) ∧
    (∃ t t' : OpenAddressingHashtable Nat Nat,
      OpenAddressingHashtable.build threshold06 (fun k : Nat => k)
        [(1, 999999), (2, 999998), (3, 999997), (4, 999996), (5, 999995), (6, 999994)] = .ok t ∧
      t.add 7 999993 = .ok t' ∧ t'._currentCount = t._currentCount + 1 ∧
      t'._elements.length =
        (if float32Div (t._currentCount + 1) t._elements.length > threshold06
          then t._elements.length * 2 else t._elements.length) ∧
      (t'._elements.length = t._elements.length ∨
        t'._elements.length = t._elements.length * 2)) := by
  constructor
  · obtain ⟨t, hb, h6, _⟩ := (add_count_and_capacity (fun k : Nat => k)).2.2.1
      [(1, 999999), (2, 999998), (3, 999997), (4, 999996), (5, 999995), (6, 999994)]
    exact ⟨t, hb, h6 rfl⟩
  · exact (add_count_and_capacity (fun k : Nat => k)).1 threshold06 (by decide)
      [(1, 999999), (2, 999998), (3, 999997), (4, 999996), (5, 999995), (6, 999994)] 7 999993

/-- C12, the code at a key of hash code 0: on an open table with threshold 0.6f and the
identity hash holding the keys 0..5 (key 0 with value 5), the add of key 6 makes the count 7,
whose binary32 quotient by 10 exceeds 0.6f, and rehashes; on the storage before the rehash get(0) returns 5, on the
doubled storage after it get(0) returns 0. -/
theorem open_rehash_changes_get_zero_hash :
    ∃ (t t' : OpenAddressingHashtable Nat Nat) (old new : List (KeyValue Nat Nat)),
      OpenAddressingHashtable.build threshold06 (fun k : Nat => k)
        [(0, 5), (1, 1), (2, 2), (3, 3), (4, 4), (5, 5)] = .ok t ∧
      OpenAddressingHashtable.addToElements t._elements 6 6 6 = .ok old ∧
      float32Div (t._currentCount + 1) old.length > t._requestedLoadFactor ∧
      OpenAddressingHashtable.rehash old (List.replicate (old.length * 2) KeyValue.zero)
        = .ok new ∧
      t.add 6 6 = .ok t' ∧ t'._elements = new ∧
      OpenAddressingHashtable.get
        { t with _elements := old, _currentCount := t._currentCount + 1 } 0 = .ok 5 ∧
      OpenAddressingHashtable.get
        { t with _elements := new, _currentCount := t._currentCount + 1 } 0 = .ok 0 ∧
      t'.get 0 = .ok 0 :=
  ⟨_, _, _, _, rfl, rfl, by decide, rfl, rfl, rfl, rfl, rfl, rfl⟩

/-- Counterexample to C13 as stated: after add(3, 1) and add(3, 2) on an open table with
threshold 0.6f the count is 2 but one slot is occupied, and loadFactor() is the binary32
quotient of 2 by 10, not that of 1 by 10. -/
theorem open_count_occupied_counterexample :
    ∃ t : OpenAddressingHashtable Nat Nat,
      OpenAddressingHashtable.build threshold06 (fun k : Nat => k) [(3, 1), (3, 2)] = .ok t ∧
      t._currentCount = 2 ∧ OpenAddressingHashtable.occupied t._elements = 1 ∧
      t.loadFactor
        ≠ float32Div (OpenAddressingHashtable.occupied t._elements) t._elements.length :=
  ⟨_, rfl, rfl, rfl, by decide⟩

/-- C13, amended: in every state reached by add calls on an OpenAddressingHashtable, the
count that add increments equals the number of add calls made and loadFactor() is that
number divided by the capacity (the binary32 quotient); the number of occupied slots is the number of distinct
non-zero hash codes among the added keys, so it is at most the count, and it equals the
count (and loadFactor() equals occupied slots / capacity) when the added keys have pairwise
distinct, non-zero hash codes. -/
theorem open_count_and_occupied {TKey TValue : Type} [Inhabited TKey] [Inhabited TValue]
    (loadFactor : ℚ) (hlf : loadFactor < 1) (hashFunction : TKey → Nat)
    (adds : List (TKey × TValue)) :
    ∃ t, OpenAddressingHashtable.build loadFactor hashFunction adds = .ok t ∧
      t._currentCount = adds.length ∧
      t.loadFactor = float32Div adds.length t._elements.length ∧
      OpenAddressingHashtable.occupied t._elements
        = ((adds.map (fun q => hashFunction q.1)).toFinset.erase 0).card ∧
      OpenAddressingHashtable.occupied t._elements ≤ t._currentCount ∧
      ((adds.map (fun q => hashFunction q.1)).Nodup → (∀ q ∈ adds, hashFunction q.1 ≠ 0) →
        OpenAddressingHashtable.occupied t._elements = t._currentCount ∧
        t.loadFactor
          = float32Div (OpenAddressingHashtable.occupied t._elements) t._elements.length) := by
  obtain ⟨t, hb, ht, _⟩ := OpenAddressingHashtable.probing_build hlf hashFunction adds
  have hc : t._currentCount = adds.length := ht.2.1
  have hP := ht.2.2.2.2
  have hmap : (adds.map (entryOf hashFunction)).map (fun e => e.hashcode)
      = adds.map (fun q => hashFunction q.1) := by
    rw [List.map_map]
    rfl
  have hocc := OpenAddressingHashtable.probed_occupied hP
  have hocc' : OpenAddressingHashtable.occupied t._elements
      = ((adds.map (fun q => hashFunction q.1)).toFinset.erase 0).card := by
    rw [hocc, storedHashes, hmap]
  have hle : OpenAddressingHashtable.occupied t._elements ≤ t._currentCount := by
    have := OpenAddressingHashtable.storedHashes_card_le (adds.map (entryOf hashFunction))
    rw [List.length_map] at this
    omega
  have hlf' : t.loadFactor = float32Div adds.length t._elements.length := by
    rw [OpenAddressingHashtable.loadFactor, hc]
  refine ⟨t, hb, hc, hlf', hocc', hle, ?_⟩
  intro hnd hnz
  have heq : OpenAddressingHashtable.occupied t._elements = t._currentCount := by
    rw [hocc, hc, OpenAddressingHashtable.storedHashes_card_of_nodup _ (by rw [hmap]; exact hnd),
      List.length_map]
    intro e he
    obtain ⟨q, hq, rfl⟩ := List.mem_map.mp he
    exact hnz q hq
  exact ⟨heq, by rw [heq, OpenAddressingHashtable.loadFactor]⟩

/-- Witness of C13, amended: the keys 1..6 have distinct non-zero hash codes; six slots are
occupied and the count is 6. -/
theorem open_count_and_occupied_witness :
    ∃ t : OpenAddressingHashtable Nat Nat,
      OpenAddressingHashtable.build threshold06 (fun k : Nat => k)
        [(1, 999999), (2, 999998), (3, 999997), (4, 999996), (5, 999995), (6, 999994)] = .ok t ∧
      t._currentCount = 6 ∧ OpenAddressingHashtable.occupied t._elements = t._currentCount := by
  obtain ⟨t, hb, hc, _, _, _, h⟩ := open_count_and_occupied threshold06 (by decide)
    (fun k : Nat => k)
    [(1, 999999), (2, 999998), (3, 999997), (4, 999996), (5, 999995), (6, 999994)]
  exact ⟨t, hb, hc, (h (by decide) (by decide)).1⟩

/-- C14: in an OpenAddressingHashtable built with a threshold < 1.0, after construction and
immediately after every add returns, at least one slot of the storage array is empty (cached
hash code 0): fewer slots are occupied than the array has. -/
theorem open_always_empty_slot {TKey TValue : Type} [Inhabited TKey] [Inhabited TValue]
    (loadFactor : ℚ) (hlf : loadFactor < 1) (hashFunction : TKey → Nat)
    (adds : List (TKey × TValue)) :
    ∃ t, OpenAddressingHashtable.build loadFactor hashFunction adds = .ok t ∧
      OpenAddressingHashtable.occupied t._elements < t._elements.length ∧
      ∃ (i : Nat) (kv : KeyValue TKey TValue), t._elements[i]? = some kv ∧ kv.hashcode = 0 := by
  obtain ⟨t, hb, ht, _⟩ := OpenAddressingHashtable.probing_build hlf hashFunction adds
  obtain ⟨hocc, hempty⟩ := OpenAddressingHashtable.probing_empty_slot ht
  exact ⟨t, hb, hocc, hempty⟩

/-- Witness of C14: threshold 0.95f and ten adds of distinct keys, the tenth of which
resizes. -/
theorem open_always_empty_slot_witness :
    ∃ t : OpenAddressingHashtable Nat Nat,
      OpenAddressingHashtable.build threshold095 (fun k : Nat => k)
        [(1, 1), (2, 2), (3, 3), (4, 4), (5, 5), (6, 6), (7, 7), (8, 8), (9, 9), (10, 10)]
          = .ok t ∧
      OpenAddressingHashtable.occupied t._elements < t._elements.length ∧
      ∃ (i : Nat) (kv : KeyValue Nat Nat), t._elements[i]? = some kv ∧ kv.hashcode = 0 :=
  open_always_empty_slot threshold095 (by decide) (fun k : Nat => k)
    [(1, 1), (2, 2), (3, 3), (4, 4), (5, 5), (6, 6), (7, 7), (8, 8), (9, 9), (10, 10)]

/-- C15: the probe getKeyValue terminates on every storage array of positive capacity n and
every hash value: its loop ends within its budget of n evaluations of the condition, after
at most n - 1 advances, and the probe returns an index below n; hence get, exists and add on
an open table of positive capacity return (a value, or the exception of a miss). -/
theorem open_probe_terminates {TKey TValue : Type} [Inhabited TKey] [Inhabited TValue]
    (t : OpenAddressingHashtable TKey TValue) (hpos : 0 < t._elements.length)
    (key : TKey) (hashValue : Nat) :
    (∃ d, OpenAddressingHashtable.getKeyValueLoop t._elements hashValue
        (hashValue % t._elements.length) t._elements.length 0 = .ok d ∧
      d + 1 ≤ t._elements.length ∧
      OpenAddressingHashtable.getKeyValue t._elements key hashValue
        = .ok ((hashValue % t._elements.length + d) % t._elements.length) ∧
      (hashValue % t._elements.length + d) % t._elements.length < t._elements.length) ∧
    ((∃ v, t.get key = .ok v) ∨ t.get key = .error .NotFoundException) ∧
    (t.exists key = .ok true ∨ t.exists key = .error (.thrownBool false)) ∧
    (∀ value, ∃ t', t.add key value = .ok t') := by
  obtain ⟨d, hd, hloop, hget, _⟩ :=
    OpenAddressingHashtable.getKeyValue_first_stop t._elements key hashValue hpos
  refine ⟨⟨d, hloop, by omega, hget, Nat.mod_lt _ hpos⟩,
    OpenAddressingHashtable.get_total t hpos key,
    OpenAddressingHashtable.exists_total t hpos key, ?_⟩
  intro value
  obtain ⟨t', h', _⟩ := OpenAddressingHashtable.add_total t hpos key value
  exact ⟨t', h'⟩

/-- Witness of C15: a table of three slots, all occupied by hash codes other than 7; the
probe for 7 ends, and get, exists and add return. -/
theorem open_probe_terminates_witness :
    (∃ d, OpenAddressingHashtable.getKeyValueLoop fullTable._elements 7
        (7 % fullTable._elements.length) fullTable._elements.length 0 = .ok d ∧
      d + 1 ≤ fullTable._elements.length ∧
      OpenAddressingHashtable.getKeyValue fullTable._elements 7 7
        = .ok ((7 % fullTable._elements.length + d) % fullTable._elements.length) ∧
      (7 % fullTable._elements.length + d) % fullTable._elements.length
        < fullTable._elements.length) ∧
    ((∃ v, fullTable.get 7 = .ok v) ∨ fullTable.get 7 = .error .NotFoundException) ∧
    (fullTable.exists 7 = .ok true ∨ fullTable.exists 7 = .error (.thrownBool false)) ∧
    (∀ value, ∃ t', fullTable.add 7 value = .ok t') :=
  open_probe_terminates fullTable (by decide) 7 7

/-- C16: for every storage array of positive capacity n and every hash value h, getKeyValue
returns the slot at offset d < n from h mod n in cyclic order such that no earlier slot in
that order is empty or holds h; if some slot is empty or holds h, the returned slot is one
(the first in cyclic order); if none is, the returned slot is (h mod n + n - 1) mod n. -/
theorem open_probe_first_stop {TKey TValue : Type} (arr : List (KeyValue TKey TValue))
    (key : TKey) (h : Nat) (hpos : 0 < arr.length) :
    ∃ d, d < arr.length ∧
      OpenAddressingHashtable.getKeyValue arr key h
        = .ok ((h % arr.length + d) % arr.length) ∧
      (∀ j, j < d →
        ¬ OpenAddressingHashtable.Stops arr h ((h % arr.length + j) % arr.length)) ∧
      ((∃ i, OpenAddressingHashtable.Stops arr h i) →
        OpenAddressingHashtable.Stops arr h ((h % arr.length + d) % arr.length)) ∧
      ((¬ ∃ i, OpenAddressingHashtable.Stops arr h i) →
        (h % arr.length + d) % arr.length
          = (h % arr.length + arr.length - 1) % arr.length) := by
  obtain ⟨d, hd, _, hget, hfirst, hstop, hnone⟩ :=
    OpenAddressingHashtable.getKeyValue_first_stop arr key h hpos
  refine ⟨d, hd, hget, hfirst, hstop, ?_⟩
  intro hn
  have := hnone hn
  have heq : h % arr.length + d = h % arr.length + arr.length - 1 := by omega
  rw [heq]

/-- Witness of C16: four slots with hash codes 5, 0, 9, 6 and the probe for 6, which
starts at slot 2, walks past hash code 9 and ends on slot 3. -/
theorem open_probe_first_stop_witness :
    ∃ d, d < mixedSlots.length ∧
      OpenAddressingHashtable.getKeyValue mixedSlots 6 6
        = .ok ((6 % mixedSlots.length + d) % mixedSlots.length) ∧
      (∀ j, j < d →
        ¬ OpenAddressingHashtable.Stops mixedSlots 6 ((6 % mixedSlots.length + j)
          % mixedSlots.length)) ∧
      ((∃ i, OpenAddressingHashtable.Stops mixedSlots 6 i) →
        OpenAddressingHashtable.Stops mixedSlots 6
          ((6 % mixedSlots.length + d) % mixedSlots.length)) ∧
      ((¬ ∃ i, OpenAddressingHashtable.Stops mixedSlots 6 i) →
        (6 % mixedSlots.length + d) % mixedSlots.length
          = (6 % mixedSlots.length + mixedSlots.length - 1) % mixedSlots.length) :=
  open_probe_first_stop mixedSlots 6 6 (by decide)

/-- C18: in every state reached from a successful construction by add calls, in both
variants, the capacity is 10 * 2^r and so positive; hash mod capacity and the index the
linear probe returns lie within the storage array, and get, exists and add end without a
modulo by zero and without an out-of-range access: get returns a value or throws NotFound,
exists returns (or, in the open variant, throws `false`), add returns. -/
theorem capacity_power_of_two_and_safe {TKey TValue : Type} [Inhabited TKey]
    [Inhabited TValue] (hashFunction : TKey → Nat) (adds : List (TKey × TValue)) (key : TKey) :
    (∀ threshold : ℚ, threshold < 1 →
      ∃ (t : OpenAddressingHashtable TKey TValue) (r : Nat),
        OpenAddressingHashtable.build threshold hashFunction adds = .ok t ∧
        t._elements.length = 10 * 2 ^ r ∧ 0 < t._elements.length ∧
        hashFunction key % t._elements.length < t._elements.length ∧
        (∃ i, OpenAddressingHashtable.getKeyValue t._elements key (hashFunction key) = .ok i ∧
          i < t._elements.length) ∧
        ((∃ v, t.get key = .ok v) ∨ t.get key = .error .NotFoundException) ∧
        (t.exists key = .ok true ∨ t.exists key = .error (.thrownBool false)) ∧
        (∀ value, ∃ t', t.add key value = .ok t')) ∧
    (∀ threshold : ℚ,
      ∃ (t : ClosedAddressingHashtable TKey TValue) (r : Nat),
        ClosedAddressingHashtable.build threshold hashFunction adds = .ok t ∧
        t._elements.length = 10 * 2 ^ r ∧ 0 < t._elements.length ∧
        hashFunction key % t._elements.length < t._elements.length ∧
        (∃ bucket, ClosedAddressingHashtable.bucketOf t._elements (hashFunction key)
          = .ok (hashFunction key % t._elements.length, bucket)) ∧
        ((∃ v, t.get key = .ok v) ∨ t.get key = .error .NotFoundException) ∧
        (∃ b, t.exists key = .ok b) ∧
        (∀ value, ∃ t', t.add key value = .ok t')) := by
  constructor
  · intro threshold hlf
    obtain ⟨t, hb, ht, _, hlen⟩ :=
      OpenAddressingHashtable.probing_capacity hlf hashFunction adds
    obtain ⟨r, hr⟩ := capacityAfter_eq_pow threshold adds.length
    have hpos : 0 < t._elements.length := by
      rw [hlen]
      exact capacityAfter_pos _ _
    obtain ⟨d, _, _, hget, _⟩ := OpenAddressingHashtable.getKeyValue_first_stop t._elements key
      (hashFunction key) hpos
    refine ⟨t, r, hb, by rw [hlen, hr], hpos, Nat.mod_lt _ hpos,
      ⟨_, hget, Nat.mod_lt _ hpos⟩, OpenAddressingHashtable.get_total t hpos key,
      OpenAddressingHashtable.exists_total t hpos key, ?_⟩
    intro value
    obtain ⟨t', h', _⟩ := OpenAddressingHashtable.add_total t hpos key value
    exact ⟨t', h'⟩
  · intro threshold
    obtain ⟨t, hb, ht, _, hlen⟩ :=
      ClosedAddressingHashtable.chained_capacity threshold hashFunction adds
    obtain ⟨r, hr⟩ := capacityAfter_eq_pow threshold adds.length
    have hpos : 0 < t._elements.length := by
      rw [hlen]
      exact capacityAfter_pos _ _
    obtain ⟨hbucket, hget, hex, hadd⟩ := ClosedAddressingHashtable.chained_safe ht key
    rw [ht.1] at hbucket
    exact ⟨t, r, hb, by rw [hlen, hr], hpos, Nat.mod_lt _ hpos, hbucket, hget, hex, hadd⟩

/-- Witness of C18: the open table with threshold 0.6f after the adds of the keys 1..7. -/
theorem capacity_power_of_two_and_safe_witness :
    ∃ (t : OpenAddressingHashtable Nat Nat) (r : Nat),
      OpenAddressingHashtable.build threshold06 (fun k : Nat => k)
        [(1, 1), (2, 2), (3, 3), (4, 4), (5, 5), (6, 6), (7, 7)] = .ok t ∧
      t._elements.length = 10 * 2 ^ r ∧ 0 < t._elements.length ∧
      (fun k : Nat => k) 99 % t._elements.length < t._elements.length ∧
      (∃ i, OpenAddressingHashtable.getKeyValue t._elements 99 ((fun k : Nat => k) 99) = .ok i ∧
        i < t._elements.length) ∧
      ((∃ v, t.get 99 = .ok v) ∨ t.get 99 = .error .NotFoundException) ∧
      (t.exists 99 = .ok true ∨ t.exists 99 = .error (.thrownBool false)) ∧
      (∀ value, ∃ t', t.add 99 value = .ok t') :=
  (capacity_power_of_two_and_safe (fun k : Nat => k)
    [(1, 1), (2, 2), (3, 3), (4, 4), (5, 5), (6, 6), (7, 7)] 99).1 threshold06 (by decide)

/-- C19: for every sequence of add calls applied to an OpenAddressingHashtable (threshold
< 1.0) and to a ClosedAddressingHashtable (any threshold) with the same hash function, and
every key k with a non-zero hash code, get(k) gives the same result on the two tables: the
same value, or NotFound on both. -/
theorem open_closed_get_agree {TKey TValue : Type} [Inhabited TKey] [Inhabited TValue]
    (openThreshold closedThreshold : ℚ) (hlf : openThreshold < 1) (hashFunction : TKey → Nat)
    (adds : List (TKey × TValue)) (key : TKey) (hk : hashFunction key ≠ 0) :
    ∃ (o : OpenAddressingHashtable TKey TValue) (c : ClosedAddressingHashtable TKey TValue),
      OpenAddressingHashtable.build openThreshold hashFunction adds = .ok o ∧
      ClosedAddressingHashtable.build closedThreshold hashFunction adds = .ok c ∧
      o.get key = c.get key ∧
      ((∃ v, o.get key = .ok v) ∨ o.get key = .error .NotFoundException) := by
  obtain ⟨o, hbo, hto, _⟩ := OpenAddressingHashtable.probing_build hlf hashFunction adds
  obtain ⟨c, hbc, htc⟩ :=
    ClosedAddressingHashtable.chained_build closedThreshold hashFunction adds
  have hgo := OpenAddressingHashtable.probing_get hto key hk
  have hgc := ClosedAddressingHashtable.chained_get htc key
  refine ⟨o, c, hbo, hbc, by rw [hgo, hgc], ?_⟩
  rw [hgo]
  cases earliestAdd hashFunction adds (hashFunction key) with
  | none => exact Or.inr rfl
  | some v => exact Or.inl ⟨v, rfl⟩

/-- Witness of C19: thresholds 0.6f and 3, the identity hash, adds of the keys 3, 13, 3 and
the key 13. -/
theorem open_closed_get_agree_witness :
    ∃ (o : OpenAddressingHashtable Nat Nat) (c : ClosedAddressingHashtable Nat Nat),
      OpenAddressingHashtable.build threshold06 (fun k : Nat => k) [(3, 1), (13, 2), (3, 3)]
        = .ok o ∧
      ClosedAddressingHashtable.build 3 (fun k : Nat => k) [(3, 1), (13, 2), (3, 3)] = .ok c ∧
      o.get 13 = c.get 13 ∧
      ((∃ v, o.get 13 = .ok v) ∨ o.get 13 = .error .NotFoundException) :=
  open_closed_get_agree threshold06 3 (by decide) (fun k : Nat => k)
    [(3, 1), (13, 2), (3, 3)] 13 (by decide)

/-- C20: in an OpenAddressingHashtable built with a threshold < 1.0, for every key k of
hash code 0, in every state reached by add calls (the freshly constructed table included)
and whether or not k was added, exists(k) returns true and get(k) returns a value, that of
an empty slot, instead of failing with NotFound; on the freshly constructed table the value
is the default value. -/
theorem open_zero_hash_always_found {TKey TValue : Type} [Inhabited TKey] [Inhabited TValue]
    (loadFactor : ℚ) (hlf : loadFactor < 1) (hashFunction : TKey → Nat)
    (adds : List (TKey × TValue)) (key : TKey) (hk : hashFunction key = 0) :
    ∃ t, OpenAddressingHashtable.build loadFactor hashFunction adds = .ok t ∧
      t.exists key = .ok true ∧
      (∃ kv ∈ t._elements, kv.hashcode = 0 ∧ t.get key = .ok kv.value) ∧
      t.get key ≠ .error .NotFoundException ∧
      (adds = [] → t.get key = .ok default) := by
  obtain ⟨t, hb, ht, _⟩ := OpenAddressingHashtable.probing_build hlf hashFunction adds
  obtain ⟨hex, kv, hmem, hz, hget⟩ := OpenAddressingHashtable.probing_zero_hash ht key hk
  refine ⟨t, hb, hex, ⟨kv, hmem, hz, hget⟩, ?_, ?_⟩
  · rw [hget]
    intro h
    cases h
  · intro hnil
    subst hnil
    have hfresh : t._elements = List.replicate 10 KeyValue.zero := by
      have h := hb
      simp only [OpenAddressingHashtable.build, OpenAddressingHashtable.new,
        if_neg (not_le.mpr hlf), OpenAddressingHashtable.addAll] at h
      cases h
      rfl
    rw [hfresh, List.mem_replicate] at hmem
    rw [hget, hmem.2]
    rfl

/-- Witness of C20: the key 0 under the identity hash, never added: on the open table that
holds the keys 1..6 exists(0) returns true, and on the freshly constructed table get(0)
returns the default value 0. -/
theorem open_zero_hash_always_found_witness :
    (∃ t : OpenAddressingHashtable Nat Nat,
      OpenAddressingHashtable.build threshold06 (fun k : Nat => k)
        [(1, 999999), (2, 999998), (3, 999997), (4, 999996), (5, 999995), (6, 999994)] = .ok t ∧
      t.exists 0 = .ok true ∧ t.get 0 ≠ .error .NotFoundException) ∧
    (∃ t : OpenAddressingHashtable Nat Nat,
      OpenAddressingHashtable.build threshold06 (fun k : Nat => k) [] = .ok t ∧
      t.exists 0 = .ok true ∧ t.get 0 = .ok 0) := by
  constructor
  · obtain ⟨t, hb, hex, _, hget, _⟩ := open_zero_hash_always_found threshold06 (by decide)
      (fun k : Nat => k)
      [(1, 999999), (2, 999998), (3, 999997), (4, 999996), (5, 999995), (6, 999994)] 0 rfl
    exact ⟨t, hb, hex, hget⟩
  · obtain ⟨t, hb, hex, _, _, hfresh⟩ := open_zero_hash_always_found threshold06 (by decide)
      (fun k : Nat => k) ([] : List (Nat × Nat)) 0 rfl
    exact ⟨t, hb, hex, hfresh rfl⟩
